import Mathlib

/-!
# Rk-Core UTF-8 codec (`src/utf8.cpp`)

A shallow embedding of `utf8_code_length`, `utf8_encode` and `UTF8Decoder`.

Conventions of the embedding.

* `char32` values are naturals; the one place where 32-bit wrap-around can
  matter (`cp << 6` in the decoder) carries an explicit `% 2 ^ 32`.
* Memory is a flat map from addresses to byte values.  A store through a
  `char*` keeps the low eight bits of the stored value, a load through
  `uchar (*src)` reads the cell modulo 256.  Address `0` is the null pointer.
* The decoder is an explicit state record; `decode` returns the status
  together with the new state.  The fields `len` and `pos` (declared in a
  header that is not among the sources) are naturals without wrap-around.  The continuation loop is driven by a counter
  of `end - src + 1` rounds, which is never exhausted when `src ≤ end`
  (see `decode_total`); `none` can therefore only appear for a cursor that
  already lies beyond `end`, where the C++ reads outside the source range.
-/

namespace Rk

/-- Byte addressed memory: the value stored at each address. -/
abbrev Mem := Nat → Nat

/-- The store `*a = char (v)`: only the low eight bits of `v` are kept. -/
def poke (mem : Mem) (a v : Nat) : Mem :=
  fun x => if x = a then v % 256 else mem x

/-- `utf8_code_length` (utf8.cpp, lines 17-25). -/
def utf8_code_length (cp : Nat) : Nat :=
  if cp < 0x80 then 1
  else if cp < 0x800 then 2
  else if cp < 0x10000 then 3
  else if cp < 0x200000 then 4
  else if cp < 0x4000000 then 5
  else if cp < 0x80000000 then 6
  else 0

/-- The coarse semantic classes of a codepoint (declared in a header that is
not part of the sources at hand; the variants are those listed in the
specification). -/
inductive CodepointSemantic where
  | ordinary
  | bad
  | lead_surrogate
  | trail_surrogate
  | noncharacter
deriving DecidableEq

/-- Modelled from the spec: `codepoint_semantic` is declared outside
`utf8.cpp`.  Its contract: bad = outside `0..=0x10FFFF`; lead surrogate =
`0xD800..=0xDBFF`; trail surrogate = `0xDC00..=0xDFFF`; noncharacter =
`U+FDD0..=U+FDEF` and every codepoint whose low 16 bits are `0xFFFE` or
`0xFFFF`; ordinary = everything else.  Values outside the Unicode range are
`bad` whatever their low bits are (the specification has the classifier label
every scalar `≥ 0x200000` bad). -/
def codepoint_semantic (cp : Nat) : CodepointSemantic :=
  if cp > 0x10FFFF then .bad
  else if 0xD800 ≤ cp ∧ cp ≤ 0xDBFF then .lead_surrogate
  else if 0xDC00 ≤ cp ∧ cp ≤ 0xDFFF then .trail_surrogate
  else if (0xFDD0 ≤ cp ∧ cp ≤ 0xFDEF) ∨ cp &&& 0xFFFF = 0xFFFE ∨ cp &&& 0xFFFF = 0xFFFF then
    .noncharacter
  else .ordinary

/-- Modelled from the spec: `is_codepoint_ordinary` is declared outside
`utf8.cpp`; it returns true iff the class is ordinary. -/
def is_codepoint_ordinary (cp : Nat) : Bool :=
  decide (codepoint_semantic cp = .ordinary)

/-- The loop `while (cont_bits != 0) { cont_bits -= 6; ... *dest++ = ... }` of
`utf8_encode` (lines 52-56).  The first argument counts the rounds still
allowed; `utf8_encode` passes `cont_bits` itself, which always suffices since
every round lowers `cont_bits`. -/
def encode_cont (cp : Nat) : Nat → Nat → Nat → Mem → Nat × Mem
  | 0, _, dest, mem => (dest, mem)
  | rounds + 1, cont_bits, dest, mem =>
    if cont_bits ≠ 0 then
      let cont_bits := cont_bits - 6
      let bits := (cp >>> cont_bits) &&& 0x3f
      encode_cont cp rounds cont_bits (dest + 1) (poke mem dest (0x80 ||| bits))
    else (dest, mem)

/-- `utf8_encode` (utf8.cpp, lines 27-59): returns the advanced destination
and the memory after the stores.  `limit - dest` is a signed pointer
difference.  Past the two guards `code_len` is between 1 and 4, so the `int`
arithmetic on `lead_bits` and `cont_bits` is exact on naturals. -/
def utf8_encode (mem : Mem) (cp dest limit : Nat) : Nat × Mem :=
  if (limit : Int) - (dest : Int) < 4 then (dest, mem)
  else if !is_codepoint_ordinary cp then (dest, mem)
  else
    let code_len := utf8_code_length cp
    if code_len = 1 then (dest + 1, poke mem dest (cp &&& 0x7f))
    else
      let lead_bits := 7 - code_len
      let cont_bits := 6 * (code_len - 1)
      let byte := ((0xfe <<< lead_bits) % 2 ^ 32) ||| (cp >>> cont_bits)
      encode_cont cp cont_bits cont_bits (dest + 1) (poke mem dest byte)

/-- Decoder statuses (`UTF8Decoder::Status`). -/
inductive Status where
  | idle
  | pending
  | got_codepoint
  | got_surrogate
  | got_noncharacter
  | got_overlong
  | bad_codepoint
  | invalid_sequence
deriving DecidableEq

/-- The fields of `UTF8Decoder`: the cursor `src`, the end of the source
`end`, the accumulator `cp`, the target length `len` and the position `pos`. -/
structure UTF8Decoder where
  src : Nat
  end_ : Nat
  cp : Nat
  len : Nat
  pos : Nat
deriving DecidableEq

/-- The failure of `set_source` (`std::length_error`). -/
inductive SourceError where
  | invalid_range
deriving DecidableEq

/-- `UTF8Decoder::empty` (lines 61-63). -/
def UTF8Decoder.empty (d : UTF8Decoder) : Bool :=
  decide (d.src = d.end_)

/-- `UTF8Decoder::peek` (lines 65-67). -/
def UTF8Decoder.peek (mem : Mem) (d : UTF8Decoder) : Nat :=
  mem d.src % 256

/-- `UTF8Decoder::consume` (lines 69-71). -/
def UTF8Decoder.consume (d : UTF8Decoder) : UTF8Decoder :=
  { d with src := d.src + 1 }

/-- `UTF8Decoder::set_source` (lines 73-79). -/
def UTF8Decoder.set_source (d : UTF8Decoder) (new_src new_end : Nat) :
    Except SourceError UTF8Decoder :=
  if new_src = 0 ∨ new_end < new_src then .error .invalid_range
  else .ok { d with src := new_src, end_ := new_end }

/-- `UTF8Decoder::set_source` (lines 73-79) with the decoder made explicit on
both exits: the exception thrown, if any, and the fields of the decoder after
the call.  The `throw` of line 75 comes before the two assignments, so the
decoder it leaves behind is the one the call started with. -/
def UTF8Decoder.set_source_exec (d : UTF8Decoder) (new_src new_end : Nat) :
    Option SourceError × UTF8Decoder :=
  if new_src = 0 ∨ new_end < new_src then (some SourceError.invalid_range, d)
  else (none, { d with src := new_src, end_ := new_end })

/-- The prefix scan `for (len = 2; len <= 6; len++) { ... }` of `decode`
(lines 99-104): returns the final `len` and `mask`.  `mask` is a `uchar`, so
both `uchar (mask << 1)` and the new mask are taken modulo 256.  At most five
rounds run (`len` = 2..6), which is what `decode` passes. -/
def scan_lead (byte : Nat) : Nat → Nat → Nat → Nat × Nat
  | 0, len, mask => (len, mask)
  | rounds + 1, len, mask =>
    if len ≤ 6 then
      if byte &&& mask = (mask <<< 1) % 256 then (len, mask)
      else scan_lead byte rounds (len + 1) ((0x80 ||| (mask >>> 1)) % 256)
    else (len, mask)

/-- The tail of `decode` (lines 135-149): classify the assembled scalar and
return to the idle state. -/
def diagnose (d : UTF8Decoder) : Status × UTF8Decoder :=
  let sem := codepoint_semantic d.cp
  let stat :=
    if sem = .bad then Status.bad_codepoint
    else if sem = .lead_surrogate ∨ sem = .trail_surrogate then Status.got_surrogate
    else if sem = .noncharacter then Status.got_noncharacter
    else if utf8_code_length d.cp < d.len then Status.got_overlong
    else Status.got_codepoint
  (stat, { d with len := 0 })

/-- The loop `while (pos++ != len) { ... }` of `decode` (lines 119-133)
followed by the classification.  The post-increment of `pos` happens on every
evaluation of the loop condition, before the body runs and also when the
condition is false. -/
def decode_loop (mem : Mem) : Nat → UTF8Decoder → Option (Status × UTF8Decoder)
  | 0, _ => none
  | rounds + 1, d =>
    let d1 := { d with pos := d.pos + 1 }
    if d.pos ≠ d.len then
      if d1.empty then some (Status.pending, d1)
      else
        let byte := d1.peek mem
        if byte &&& 0xc0 ≠ 0x80 then
          some (Status.invalid_sequence, { d1 with len := 0, cp := 0xfffd })
        else
          decode_loop mem rounds
            { d1 with cp := ((d1.cp <<< 6) ||| (byte &&& 0x3f)) % 2 ^ 32 }.consume
    else some (diagnose d1)

/-- `UTF8Decoder::decode` (lines 81-150).  `byte & ~mask` is computed on
`int`; as `byte` is below 256 the result is `byte` and the 32-bit complement
of `mask`. -/
def UTF8Decoder.decode (mem : Mem) (d : UTF8Decoder) : Option (Status × UTF8Decoder) :=
  if d.len = 0 then
    if d.empty then some (Status.idle, d)
    else
      let byte := d.peek mem
      let d := d.consume
      if byte &&& 0x80 = 0x00 then some (Status.got_codepoint, { d with cp := byte })
      else
        let lm := scan_lead byte 5 2 0xe0
        if lm.1 > 6 then some (Status.invalid_sequence, { d with len := 0, cp := 0xfffd })
        else
          let d := { d with len := lm.1, cp := byte &&& (0xffffffff ^^^ lm.2), pos := 1 }
          decode_loop mem (d.end_ - d.src + 1) d
  else decode_loop mem (d.end_ - d.src + 1) d

/-- Memory holds the byte string `bs` from address `a` on. -/
def holds (mem : Mem) : Nat → List Nat → Prop
  | _, [] => True
  | a, b :: bs => mem a % 256 = b ∧ holds mem (a + 1) bs

/-- A memory image that holds `bs` from address `base` on and zero elsewhere. -/
def image (base : Nat) (bs : List Nat) : Mem :=
  fun a => if base ≤ a then bs.getD (a - base) 0 else 0

/-- The stores `*dest++ = char (b)` for every `b` of `bs` in turn. -/
def poke_list (mem : Mem) : Nat → List Nat → Mem
  | _, [] => mem
  | a, b :: bs => poke_list (poke mem a b) (a + 1) bs

/-- The values the continuation loop of `utf8_encode` stores when `n` rounds
are left (`cont_bits = 6 * n`). -/
def cont_bytes (cp : Nat) : Nat → List Nat
  | 0 => []
  | n + 1 => (0x80 ||| ((cp >>> (6 * n)) &&& 0x3f)) :: cont_bytes cp n

/-- The lead byte of the L-byte form, one of 110xxxxx, 1110xxxx, 11110xxx,
111110xx, 1111110x: the top `L + 1` bits are `L` ones and a zero. -/
def lead_form (L b : Nat) : Prop :=
  b < 256 ∧ b >>> (7 - L) = 2 ^ (L + 1) - 2

instance (L b : Nat) : Decidable (lead_form L b) := by
  unfold lead_form; infer_instance

/-- A continuation byte, 10xxxxxx. -/
def cont_form (b : Nat) : Prop :=
  b &&& 0xc0 = 0x80

instance (b : Nat) : Decidable (cont_form b) := by
  unfold cont_form; infer_instance

/-- The scalar made of the payload bits of the lead byte of an L-byte form
followed by the six payload bits of each continuation byte in order. -/
def assemble (L lead : Nat) (conts : List Nat) : Nat :=
  conts.foldl (fun s c => s * 64 + c % 64) (lead % 2 ^ (7 - L))

/-- The accumulator after the continuation bytes `cs` have been shifted in, as
the loop of `decode` computes it. -/
def accumulate (cp : Nat) (cs : List Nat) : Nat :=
  cs.foldl (fun c b => ((c <<< 6) ||| (b &&& 0x3f)) % 2 ^ 32) cp

/-- The prefix mask the scan of `decode` stops at for an L-byte lead
(`0xe0, 0xf0, 0xf8, 0xfc, 0xfe` for `L` = 2..6). -/
def lead_mask (L : Nat) : Nat := 0xff - (2 ^ (7 - L) - 1)

/-- The status a complete L-byte sequence carrying the scalar `S` is to get:
bad_codepoint if `S` is bad, else got_surrogate if `S` is a lead or trail
surrogate, else got_noncharacter if `S` is a noncharacter, else got_overlong
if the canonical length of `S` is below `L`, else got_codepoint. -/
def expected_status (L S : Nat) : Status :=
  match codepoint_semantic S with
  | .bad => Status.bad_codepoint
  | .lead_surrogate => Status.got_surrogate
  | .trail_surrogate => Status.got_surrogate
  | .noncharacter => Status.got_noncharacter
  | .ordinary => if utf8_code_length S < L then Status.got_overlong else Status.got_codepoint

/-- The L-byte form that carries the scalar `S` (for `L` in 2..6): the lead
byte `(0xFE << (7 - L)) | (S >> 6 (L - 1))` cut to eight bits, then the
continuation bytes `0x80 | ((S >> 6 k) & 0x3F)` for `k = L - 2` down to 0. -/
def utf8_form (L S : Nat) : List Nat :=
  ((((0xfe <<< (7 - L)) % 2 ^ 32) ||| (S >>> (6 * (L - 1)))) % 256) :: cont_bytes S (L - 1)

/-- The bytes `utf8_encode` stores for a scalar it accepts. -/
def utf8_bytes (S : Nat) : List Nat :=
  if utf8_code_length S = 1 then [S &&& 0x7f] else utf8_form (utf8_code_length S) S

/-- The bytes `utf8_encode` stores for a list of scalars it accepts, one after
the other. -/
def encoding : List Nat → List Nat
  | [] => []
  | S :: rest => utf8_bytes S ++ encoding rest

/-- A caller that encodes the scalars of a list one after the other, each
call of `utf8_encode` starting where the previous one stopped. -/
def encode_all : List Nat → Mem → Nat → Nat → Nat × Mem
  | [], mem, dest, _ => (dest, mem)
  | S :: rest, mem, dest, limit =>
    encode_all rest (utf8_encode mem S dest limit).2 (utf8_encode mem S dest limit).1 limit

/-- A caller that calls `decode` until it returns idle or pending, at most
`calls` times: the (status, accumulator) pairs of the other statuses in order,
then the closing status and the decoder state. -/
def run (mem : Mem) : Nat → UTF8Decoder → Option (List (Status × Nat) × Status × UTF8Decoder)
  | 0, _ => none
  | calls + 1, d =>
    match d.decode mem with
    | none => none
    | some (st, d1) =>
      if st = Status.idle ∨ st = Status.pending then some ([], st, d1)
      else
        match run mem calls d1 with
        | none => none
        | some (evs, r) => some ((st, d1.cp) :: evs, r)

/-- A caller that installs each piece `(begin, end)` in turn with `set_source`
and runs `decode` on it until idle or pending: all the (status, accumulator)
pairs in order, and the final decoder state. -/
def drive (mem : Mem) (calls : Nat) : List (Nat × Nat) → UTF8Decoder →
    Option (List (Status × Nat) × UTF8Decoder)
  | [], d => some ([], d)
  | piece :: pieces, d =>
    match d.set_source piece.1 piece.2 with
    | .error _ => none
    | .ok d1 =>
      match run mem calls d1 with
      | none => none
      | some (evs, _, d2) =>
        match drive mem calls pieces d2 with
        | none => none
        | some (more, d3) => some (evs ++ more, d3)

/-- What a caller can tell of the outcome of `decode`: the status, the cursor,
the end of the source, the accumulator, the target length, and the position
while a sequence is in progress (`len ≠ 0`). -/
def observe (r : Status × UTF8Decoder) : Status × Nat × Nat × Nat × Nat × Nat :=
  (r.1, r.2.src, r.2.end_, r.2.cp, r.2.len, if r.2.len = 0 then 0 else r.2.pos)

/-- The length of the form a lead byte `0xC0..0xFD` announces. -/
def lead_length (b : Nat) : Nat :=
  if b < 0xE0 then 2 else if b < 0xF0 then 3 else if b < 0xF8 then 4
  else if b < 0xFC then 5 else 6

/-- The state invariant of the decoder: `len = 0`, or `2 ≤ len ≤ 6` and
`1 ≤ pos ≤ len`. -/
def state_inv (d : UTF8Decoder) : Prop :=
  d.len = 0 ∨ (2 ≤ d.len ∧ d.len ≤ 6 ∧ 1 ≤ d.pos ∧ d.pos ≤ d.len)

instance (d : UTF8Decoder) : Decidable (state_inv d) := by
  unfold state_inv; infer_instance

/-! ## Bit-level facts -/

theorem and_63 (b : Nat) : b &&& 0x3f = b % 64 :=
  Nat.and_pow_two_sub_one_eq_mod b 6

theorem shl6_or (c y : Nat) (hy : y < 64) : (c <<< 6) ||| y = c * 64 + y := by
  have h := Nat.mul_add_lt_is_or (i := 6) (b := y) (by simpa using hy) c
  rw [Nat.shiftLeft_eq]
  simp only [Nat.reducePow] at h ⊢
  rw [Nat.mul_comm c 64, ← h]

theorem acc_step (c b : Nat) (hc : c < 2 ^ 26) :
    ((c <<< 6) ||| (b &&& 0x3f)) % 2 ^ 32 = c * 64 + b % 64 := by
  rw [and_63, shl6_or c (b % 64) (Nat.mod_lt _ (by decide))]
  simp only [Nat.reducePow] at hc ⊢
  omega

theorem accumulate_eq : ∀ (cs : List Nat) (k c0 : Nat), c0 < 2 ^ k → k + 6 * cs.length ≤ 32 →
    accumulate c0 cs = cs.foldl (fun s c => s * 64 + c % 64) c0 ∧
    accumulate c0 cs < 2 ^ (k + 6 * cs.length) := by
  intro cs
  induction cs with
  | nil => intro k c0 h _; simpa [accumulate] using h
  | cons c cs ih =>
    intro k c0 h hk
    simp only [List.length_cons] at hk
    have h26 : c0 < 2 ^ 26 := lt_of_lt_of_le h (Nat.pow_le_pow_right (by decide) (by omega))
    have hstep := acc_step c0 c h26
    have hlt : c0 * 64 + c % 64 < 2 ^ (k + 6) := by
      rw [Nat.pow_add]
      have : c % 64 < 64 := Nat.mod_lt _ (by decide)
      simp only [Nat.reducePow]
      omega
    have := ih (k + 6) (c0 * 64 + c % 64) hlt (by omega)
    simp only [accumulate, List.foldl_cons, List.length_cons] at this ⊢
    rw [hstep]
    refine ⟨this.1, ?_⟩
    have h2 := this.2
    have e : k + 6 + 6 * cs.length = k + 6 * (cs.length + 1) := by omega
    rw [e] at h2
    exact h2

set_option maxRecDepth 100000 in
theorem lead_byte_facts (L : Nat) (hL : 2 ≤ L ∧ L ≤ 6) (b : Nat) (h : lead_form L b) :
    scan_lead b 5 2 0xe0 = (L, lead_mask L) ∧ b &&& 0x80 ≠ 0 ∧
    b &&& (0xffffffff ^^^ lead_mask L) = b % 2 ^ (7 - L) := by
  obtain ⟨h2, h6⟩ := hL
  obtain ⟨hb, hf⟩ := h
  revert hf
  interval_cases L <;> (revert b; simp only [lead_mask]; decide)

/-! ## The continuation loop -/

theorem decode_loop_conts (mem : Mem) : ∀ (cs : List Nat) (rounds : Nat) (d : UTF8Decoder),
    holds mem d.src cs → (∀ c ∈ cs, cont_form c) → d.pos + cs.length = d.len →
    d.src + cs.length ≤ d.end_ → cs.length < rounds →
    decode_loop mem rounds d = some (diagnose
      { src := d.src + cs.length, end_ := d.end_, cp := accumulate d.cp cs,
        len := d.len, pos := d.len + 1 }) := by
  intro cs
  induction cs with
  | nil =>
    intro rounds d _ _ hpos _ hr
    obtain ⟨src, e, cp, len, pos⟩ := d
    cases rounds with
    | zero => simp at hr
    | succ r =>
      simp only [List.length_nil, Nat.add_zero] at hpos
      subst hpos
      simp [decode_loop, accumulate]
  | cons c cs ih =>
    intro rounds d hh hc hpos hend hr
    obtain ⟨src, e, cp, len, pos⟩ := d
    cases rounds with
    | zero => simp at hr
    | succ r =>
      simp only [List.length_cons] at hpos hend hr
      simp only [holds] at hh
      have hne : pos ≠ len := by omega
      have hse : src ≠ e := by omega
      have hcc : c &&& 0xc0 = 0x80 := hc c (List.mem_cons_self _ _)
      have := ih r ⟨src + 1, e, ((cp <<< 6) ||| (c &&& 0x3f)) % 2 ^ 32, len, pos + 1⟩ hh.2
        (fun x hx => hc x (List.mem_cons_of_mem _ hx)) (by simp; omega) (by simp; omega)
        (by omega)
      simp only [decode_loop, UTF8Decoder.empty, UTF8Decoder.peek, UTF8Decoder.consume,
        hne, hse, hh.1, hcc, ne_eq, not_false_eq_true, not_true_eq_false, if_true, if_false,
        decide_False, Bool.false_eq_true]
      rw [this]
      simp [accumulate, Nat.add_assoc, Nat.add_comm 1]

theorem decode_loop_bad (mem : Mem) : ∀ (cs : List Nat) (rounds : Nat) (d : UTF8Decoder),
    holds mem d.src cs → (∀ c ∈ cs, cont_form c) → d.pos + cs.length < d.len →
    d.src + cs.length < d.end_ → ¬ cont_form (mem (d.src + cs.length) % 256) →
    cs.length < rounds →
    decode_loop mem rounds d = some (Status.invalid_sequence,
      { src := d.src + cs.length, end_ := d.end_, cp := 0xfffd,
        len := 0, pos := d.pos + cs.length + 1 }) := by
  intro cs
  induction cs with
  | nil =>
    intro rounds d _ _ hpos hend hx hr
    obtain ⟨src, e, cp, len, pos⟩ := d
    cases rounds with
    | zero => simp at hr
    | succ r =>
      simp only [List.length_nil, Nat.add_zero] at hpos hend hx
      have hne : pos ≠ len := by omega
      have hse : src ≠ e := by omega
      have hx2 : ¬ (mem src % 256 &&& 0xc0 = 0x80) := hx
      simp [decode_loop, UTF8Decoder.empty, UTF8Decoder.peek, hne, hse, hx2]
  | cons c cs ih =>
    intro rounds d hh hc hpos hend hx hr
    obtain ⟨src, e, cp, len, pos⟩ := d
    cases rounds with
    | zero => simp at hr
    | succ r =>
      simp only [List.length_cons] at hpos hend hr hx
      simp only [holds] at hh
      have hne : pos ≠ len := by omega
      have hse : src ≠ e := by omega
      have hcc : c &&& 0xc0 = 0x80 := hc c (List.mem_cons_self _ _)
      have := ih r ⟨src + 1, e, ((cp <<< 6) ||| (c &&& 0x3f)) % 2 ^ 32, len, pos + 1⟩ hh.2
        (fun x hx => hc x (List.mem_cons_of_mem _ hx)) (by simp; omega) (by simp; omega)
        (by simpa [Nat.add_assoc, Nat.add_comm 1] using hx) (by omega)
      simp only [decode_loop, UTF8Decoder.empty, UTF8Decoder.peek, UTF8Decoder.consume,
        hne, hse, hh.1, hcc, ne_eq, not_false_eq_true, not_true_eq_false, if_true, if_false,
        decide_False, Bool.false_eq_true]
      rw [this]
      simp [Nat.add_assoc, Nat.add_comm 1]

/-! ## Decoding one complete sequence -/

theorem diagnose_eq (d : UTF8Decoder) :
    diagnose d = (expected_status d.len d.cp, { d with len := 0 }) := by
  simp only [diagnose, expected_status]
  cases h : codepoint_semantic d.cp <;> simp

theorem decode_sequence (mem : Mem) (d : UTF8Decoder) (L lead : Nat) (conts : List Nat)
    (hidle : d.len = 0) (hL : 2 ≤ L ∧ L ≤ 6) (hlead : lead_form L lead)
    (hn : conts.length + 1 = L) (hc : ∀ c ∈ conts, cont_form c)
    (hh : holds mem d.src (lead :: conts)) (hend : d.src + L ≤ d.end_) :
    d.decode mem = some (expected_status L (assemble L lead conts),
      { src := d.src + L, end_ := d.end_, cp := assemble L lead conts,
        len := 0, pos := L + 1 }) := by
  obtain ⟨src, e, cp, len, pos⟩ := d
  simp only at hidle hend hh
  subst hidle
  obtain ⟨hscan, h80, hpay⟩ := lead_byte_facts L hL lead hlead
  simp only [holds] at hh
  have hse : src ≠ e := by omega
  have hL6 : ¬ (L > 6) := by omega
  have hloop := decode_loop_conts mem conts (e - (src + 1) + 1)
    ⟨src + 1, e, lead &&& (0xffffffff ^^^ lead_mask L), L, 1⟩ hh.2 hc
    (by simp; omega) (by simp; omega) (by omega)
  have hacc := accumulate_eq conts (7 - L) (lead % 2 ^ (7 - L))
    (Nat.mod_lt _ (Nat.pos_pow_of_pos _ (by decide))) (by omega)
  simp only [UTF8Decoder.decode, UTF8Decoder.empty, UTF8Decoder.peek, UTF8Decoder.consume,
    hse, hh.1, h80, hscan, hL6, if_true, if_false, decide_False, Bool.false_eq_true]
  rw [hloop, diagnose_eq]
  simp only [hpay, hacc.1, assemble]
  have e1 : src + 1 + conts.length = src + L := by omega
  rw [e1]

/-! ## The encoder -/

theorem poke_mod (mem : Mem) (a v : Nat) : poke mem a (v % 256) = poke mem a v := by
  funext x
  simp [poke]

theorem poke_list_frame : ∀ (bs : List Nat) (a : Nat) (mem : Mem) (x : Nat),
    x < a ∨ a + bs.length ≤ x → poke_list mem a bs x = mem x := by
  intro bs
  induction bs with
  | nil => intro a mem x _; rfl
  | cons b bs ih =>
    intro a mem x hx
    simp only [List.length_cons] at hx
    simp only [poke_list]
    rw [ih (a + 1) (poke mem a b) x (by omega)]
    have : x ≠ a := by omega
    simp [poke, this]

theorem holds_poke_list : ∀ (bs : List Nat) (a : Nat) (mem : Mem),
    (∀ b ∈ bs, b < 256) → holds (poke_list mem a bs) a bs := by
  intro bs
  induction bs with
  | nil => intro a mem _; trivial
  | cons b bs ih =>
    intro a mem hb
    have hb1 : b < 256 := hb b (List.mem_cons_self _ _)
    refine ⟨?_, ih (a + 1) (poke mem a b) (fun x hx => hb x (List.mem_cons_of_mem _ hx))⟩
    show poke_list (poke mem a b) (a + 1) bs a % 256 = b
    rw [poke_list_frame bs (a + 1) (poke mem a b) a (Or.inl (by omega))]
    simp only [poke, if_true]
    omega

theorem holds_frame (m1 m2 : Mem) : ∀ (bs : List Nat) (a : Nat),
    (∀ x, a ≤ x → x < a + bs.length → m1 x = m2 x) → holds m1 a bs → holds m2 a bs := by
  intro bs
  induction bs with
  | nil => intro a _ _; trivial
  | cons b bs ih =>
    intro a hx hh
    simp only [List.length_cons] at hx
    refine ⟨?_, ih (a + 1) (fun x h1 h2 => hx x (by omega) (by omega)) hh.2⟩
    rw [← hx a (by omega) (by omega)]
    exact hh.1

theorem holds_append (mem : Mem) : ∀ (xs ys : List Nat) (a : Nat),
    holds mem a (xs ++ ys) ↔ holds mem a xs ∧ holds mem (a + xs.length) ys := by
  intro xs
  induction xs with
  | nil => intro ys a; simp [holds]
  | cons x xs ih =>
    intro ys a
    have e : a + (xs.length + 1) = a + 1 + xs.length := by omega
    show (mem a % 256 = x ∧ holds mem (a + 1) (xs ++ ys)) ↔
      (mem a % 256 = x ∧ holds mem (a + 1) xs) ∧ holds mem (a + (xs.length + 1)) ys
    rw [ih, e, and_assoc]

theorem poke_list_append : ∀ (xs ys : List Nat) (a : Nat) (mem : Mem),
    poke_list mem a (xs ++ ys) = poke_list (poke_list mem a xs) (a + xs.length) ys := by
  intro xs
  induction xs with
  | nil => intro ys a mem; rfl
  | cons x xs ih =>
    intro ys a mem
    have e : a + (xs.length + 1) = a + 1 + xs.length := by omega
    show poke_list (poke mem a x) (a + 1) (xs ++ ys) =
      poke_list (poke_list (poke mem a x) (a + 1) xs) (a + (xs.length + 1)) ys
    rw [ih, e]

theorem encode_cont_eq (cp : Nat) : ∀ (n rounds dest : Nat) (mem : Mem), 6 * n ≤ rounds →
    encode_cont cp rounds (6 * n) dest mem = (dest + n, poke_list mem dest (cont_bytes cp n)) := by
  intro n
  induction n with
  | zero =>
    intro rounds dest mem _
    cases rounds <;> simp [encode_cont, cont_bytes, poke_list]
  | succ n ih =>
    intro rounds dest mem hr
    cases rounds with
    | zero => omega
    | succ r =>
      have h0 : 6 * (n + 1) ≠ 0 := by omega
      have h6 : 6 * (n + 1) - 6 = 6 * n := by omega
      simp only [encode_cont, h0, h6, ne_eq, not_false_eq_true, if_true, cont_bytes, poke_list]
      rw [ih r (dest + 1) _ (by omega)]
      have : dest + 1 + n = dest + (n + 1) := by omega
      rw [this]

theorem cont_bytes_length (cp : Nat) : ∀ n, (cont_bytes cp n).length = n := by
  intro n
  induction n with
  | zero => rfl
  | succ n ih => simp [cont_bytes, ih]

theorem or_80_facts : ∀ y, y < 64 →
    cont_form (0x80 ||| y) ∧ (0x80 ||| y) % 64 = y ∧ (0x80 ||| y) < 256 := by
  decide

theorem cont_bytes_form (cp : Nat) : ∀ n, ∀ c ∈ cont_bytes cp n, cont_form c ∧ c < 256 := by
  intro n
  induction n with
  | zero => intro c hc; simp [cont_bytes] at hc
  | succ n ih =>
    intro c hc
    simp only [cont_bytes, List.mem_cons] at hc
    rcases hc with rfl | hc
    · have := or_80_facts ((cp >>> (6 * n)) &&& 0x3f) (by rw [and_63]; exact Nat.mod_lt _ (by decide))
      exact ⟨this.1, this.2.2⟩
    · exact ih c hc

theorem foldl_cont_bytes (S : Nat) : ∀ (n s0 : Nat),
    (cont_bytes S n).foldl (fun s c => s * 64 + c % 64) s0 = s0 * 64 ^ n + S % 64 ^ n := by
  intro n
  induction n with
  | zero => intro s0; simp [cont_bytes, Nat.mod_one]
  | succ n ih =>
    intro s0
    have hy : (S >>> (6 * n)) &&& 0x3f < 64 := by rw [and_63]; exact Nat.mod_lt _ (by decide)
    have h1 := (or_80_facts _ hy).2.1
    simp only [cont_bytes, List.foldl_cons, h1, ih]
    rw [and_63, Nat.shiftRight_eq_div_pow, Nat.pow_mul]
    simp only [Nat.reducePow]
    rw [Nat.pow_succ, Nat.mod_mul]
    ring

set_option maxRecDepth 100000 in
theorem lead_value_facts (L : Nat) (hL : 2 ≤ L ∧ L ≤ 6) (x : Nat) (hx : x < 2 ^ (7 - L)) :
    lead_form L ((((0xfe <<< (7 - L)) % 2 ^ 32) ||| x) % 256) ∧
    ((((0xfe <<< (7 - L)) % 2 ^ 32) ||| x) % 256) % 2 ^ (7 - L) = x := by
  obtain ⟨h2, h6⟩ := hL
  revert hx
  interval_cases L <;> (revert x; decide)

theorem utf8_form_facts (L S : Nat) (hL : 2 ≤ L ∧ L ≤ 6) (hS : S < 2 ^ (5 * L + 1)) :
    ∃ lead conts, utf8_form L S = lead :: conts ∧ lead_form L lead ∧
      conts.length + 1 = L ∧ (∀ c ∈ conts, cont_form c) ∧ (∀ b ∈ utf8_form L S, b < 256) ∧
      assemble L lead conts = S := by
  have hx : S >>> (6 * (L - 1)) < 2 ^ (7 - L) := by
    rw [Nat.shiftRight_eq_div_pow, Nat.div_lt_iff_lt_mul (Nat.pos_pow_of_pos _ (by decide)),
      ← Nat.pow_add]
    have : 7 - L + 6 * (L - 1) = 5 * L + 1 := by omega
    rw [this]; exact hS
  obtain ⟨hlf, hpay⟩ := lead_value_facts L hL _ hx
  refine ⟨_, _, rfl, hlf, ?_, fun c hc => (cont_bytes_form S _ c hc).1, ?_, ?_⟩
  · rw [cont_bytes_length]; omega
  · intro b hb
    simp only [utf8_form, List.mem_cons] at hb
    rcases hb with rfl | hb
    · exact Nat.mod_lt _ (by decide)
    · exact (cont_bytes_form S _ b hb).2
  · simp only [assemble, hpay, foldl_cont_bytes]
    rw [Nat.shiftRight_eq_div_pow, Nat.pow_mul]
    simp only [Nat.reducePow]
    rw [Nat.mul_comm]
    exact Nat.div_add_mod S (64 ^ (L - 1))

theorem ordinary_le (S : Nat) (h : codepoint_semantic S = CodepointSemantic.ordinary) :
    S ≤ 0x10FFFF := by
  unfold codepoint_semantic at h
  split_ifs at h
  omega

theorem code_length_cases (S : Nat) (h : S ≤ 0x10FFFF) :
    (utf8_code_length S = 1 ∧ S < 0x80) ∨ (utf8_code_length S = 2 ∧ S < 2 ^ 11) ∨
    (utf8_code_length S = 3 ∧ S < 2 ^ 16) ∨ (utf8_code_length S = 4 ∧ S < 2 ^ 21) := by
  unfold utf8_code_length
  simp only [Nat.reducePow]
  split_ifs <;> omega

theorem utf8_bytes_length (S : Nat) (h : S ≤ 0x10FFFF) :
    (utf8_bytes S).length = utf8_code_length S := by
  unfold utf8_bytes
  split_ifs with h1
  · simp [h1]
  · simp only [utf8_form, List.length_cons, cont_bytes_length]
    rcases code_length_cases S h with h | h | h | h <;> omega

theorem utf8_encode_ok (mem : Mem) (S dest limit : Nat)
    (hord : codepoint_semantic S = CodepointSemantic.ordinary)
    (hroom : 4 ≤ (limit : Int) - (dest : Int)) :
    utf8_encode mem S dest limit =
      (dest + utf8_code_length S, poke_list mem dest (utf8_bytes S)) := by
  have hle := ordinary_le S hord
  have h1 : ¬ ((limit : Int) - (dest : Int) < 4) := by omega
  have h2 : is_codepoint_ordinary S = true := by simp [is_codepoint_ordinary, hord]
  unfold utf8_encode utf8_bytes
  simp only [h1, h2, if_false, Bool.not_true, Bool.false_eq_true]
  split_ifs with hN
  · rw [hN]; rfl
  · have hn : 1 ≤ utf8_code_length S := by
      rcases code_length_cases S hle with h | h | h | h <;> omega
    rw [encode_cont_eq S (utf8_code_length S - 1) _ _ _ (Nat.le_refl _)]
    simp only [utf8_form, poke_list, poke_mod]
    have : dest + 1 + (utf8_code_length S - 1) = dest + utf8_code_length S := by omega
    rw [this]

theorem low7_facts : ∀ S, S < 128 → S &&& 0x7f = S ∧ S &&& 0x80 = 0 := by
  decide

theorem decode_utf8_bytes (mem : Mem) (d : UTF8Decoder) (S : Nat)
    (hord : codepoint_semantic S = CodepointSemantic.ordinary) (hidle : d.len = 0)
    (hh : holds mem d.src (utf8_bytes S)) (hend : d.src + utf8_code_length S ≤ d.end_) :
    d.decode mem = some (Status.got_codepoint,
      { src := d.src + utf8_code_length S, end_ := d.end_, cp := S, len := 0,
        pos := if utf8_code_length S = 1 then d.pos else utf8_code_length S + 1 }) := by
  have hle := ordinary_le S hord
  by_cases hN : utf8_code_length S = 1
  · have hS : S < 128 := by
      rcases code_length_cases S hle with h | h | h | h <;> omega
    obtain ⟨h7, h8⟩ := low7_facts S hS
    obtain ⟨src, e, cp, len, pos⟩ := d
    simp only at hidle hend hh
    subst hidle
    simp only [utf8_bytes, hN, if_true, holds, h7] at hh
    have hse : src ≠ e := by omega
    simp [UTF8Decoder.decode, UTF8Decoder.empty, UTF8Decoder.peek, UTF8Decoder.consume,
      hse, hh.1, h8, hN]
  · have hL : 2 ≤ utf8_code_length S ∧ utf8_code_length S ≤ 6 := by
      rcases code_length_cases S hle with h | h | h | h <;> omega
    have hS : S < 2 ^ (5 * utf8_code_length S + 1) := by
      rcases code_length_cases S hle with h | h | h | h
      · omega
      all_goals (rw [h.1]; simp only [Nat.reducePow, Nat.reduceMul, Nat.reduceAdd] at h ⊢; omega)
    obtain ⟨lead, conts, hform, hlf, hlen, hcf, _, hasm⟩ := utf8_form_facts _ S hL hS
    simp only [utf8_bytes, hN, if_false, hform] at hh
    rw [decode_sequence mem d _ lead conts hidle hL hlf hlen hcf hh hend, hasm]
    simp [expected_status, hord, hN]

/-! ## Sequences of scalars -/

theorem utf8_bytes_lt (S : Nat) (hle : S ≤ 0x10FFFF) : ∀ b ∈ utf8_bytes S, b < 256 := by
  by_cases hN : utf8_code_length S = 1
  · have hS : S < 128 := by
      rcases code_length_cases S hle with h | h | h | h <;> omega
    intro b hb
    simp only [utf8_bytes, hN, if_true, List.mem_singleton, (low7_facts S hS).1] at hb
    omega
  · have hL : 2 ≤ utf8_code_length S ∧ utf8_code_length S ≤ 6 := by
      rcases code_length_cases S hle with h | h | h | h <;> omega
    have hS : S < 2 ^ (5 * utf8_code_length S + 1) := by
      rcases code_length_cases S hle with h | h | h | h
      · omega
      all_goals (rw [h.1]; simp only [Nat.reducePow, Nat.reduceMul, Nat.reduceAdd] at h ⊢; omega)
    obtain ⟨_, _, _, _, _, _, hlt, _⟩ := utf8_form_facts _ S hL hS
    simpa [utf8_bytes, hN] using hlt

theorem decode_idle_empty (mem : Mem) (d : UTF8Decoder) (hidle : d.len = 0)
    (hempty : d.src = d.end_) : d.decode mem = some (Status.idle, d) := by
  simp [UTF8Decoder.decode, UTF8Decoder.empty, hidle, hempty]

theorem set_source_ok (d : UTF8Decoder) (b e : Nat) (hb : b ≠ 0) (he : b ≤ e) :
    d.set_source b e = .ok { d with src := b, end_ := e } := by
  have : ¬ (b = 0 ∨ e < b) := by omega
  simp [UTF8Decoder.set_source, this]

theorem encoding_lt : ∀ (Ss : List Nat),
    (∀ S ∈ Ss, codepoint_semantic S = CodepointSemantic.ordinary) →
    ∀ b ∈ encoding Ss, b < 256 := by
  intro Ss
  induction Ss with
  | nil => intro _ b hb; simp [encoding] at hb
  | cons S rest ih =>
    intro hord b hb
    simp only [encoding, List.mem_append] at hb
    rcases hb with hb | hb
    · exact utf8_bytes_lt S (ordinary_le S (hord S (List.mem_cons_self _ _))) b hb
    · exact ih (fun x hx => hord x (List.mem_cons_of_mem _ hx)) b hb

theorem encode_all_eq : ∀ (Ss : List Nat) (mem : Mem) (dest limit : Nat),
    (∀ S ∈ Ss, codepoint_semantic S = CodepointSemantic.ordinary) →
    dest + 4 * Ss.length ≤ limit →
    encode_all Ss mem dest limit =
      (dest + (encoding Ss).length, poke_list mem dest (encoding Ss)) := by
  intro Ss
  induction Ss with
  | nil => intro mem dest limit _ _; rfl
  | cons S rest ih =>
    intro mem dest limit hord hroom
    simp only [List.length_cons] at hroom
    have hS := hord S (List.mem_cons_self _ _)
    have hle := ordinary_le S hS
    have hN : utf8_code_length S ≤ 4 := by
      rcases code_length_cases S hle with h | h | h | h <;> omega
    simp only [encode_all, encoding]
    rw [utf8_encode_ok mem S dest limit hS (by omega)]
    simp only
    rw [ih _ _ _ (fun x hx => hord x (List.mem_cons_of_mem _ hx)) (by omega),
      poke_list_append, List.length_append, utf8_bytes_length S hle, Nat.add_assoc]

theorem run_encoding (mem : Mem) : ∀ (Ss : List Nat) (d : UTF8Decoder) (calls : Nat),
    (∀ S ∈ Ss, codepoint_semantic S = CodepointSemantic.ordinary) → d.len = 0 →
    holds mem d.src (encoding Ss) → d.src + (encoding Ss).length = d.end_ → Ss.length < calls →
    ∃ dfin, run mem calls d =
        some (Ss.map (fun S => (Status.got_codepoint, S)), Status.idle, dfin) ∧
      dfin.src = d.end_ ∧ dfin.end_ = d.end_ ∧ dfin.len = 0 := by
  intro Ss
  induction Ss with
  | nil =>
    intro d calls _ hidle _ hend hc
    cases calls with
    | zero => simp at hc
    | succ n =>
      simp only [encoding, List.length_nil, Nat.add_zero] at hend
      refine ⟨d, ?_, hend, rfl, hidle⟩
      simp [run, decode_idle_empty mem d hidle hend]
  | cons S rest ih =>
    intro d calls hord hidle hh hend hc
    cases calls with
    | zero => simp at hc
    | succ n =>
      have hS := hord S (List.mem_cons_self _ _)
      have hle := ordinary_le S hS
      simp only [encoding, List.length_append, utf8_bytes_length S hle] at hend
      simp only [encoding, holds_append, utf8_bytes_length S hle] at hh
      have hdec := decode_utf8_bytes mem d S hS hidle hh.1 (by omega)
      obtain ⟨dfin, hrun, h1, h2, h3⟩ := ih
        { src := d.src + utf8_code_length S, end_ := d.end_, cp := S, len := 0,
          pos := if utf8_code_length S = 1 then d.pos else utf8_code_length S + 1 } n
        (fun x hx => hord x (List.mem_cons_of_mem _ hx)) rfl hh.2 (by simp; omega)
        (by simpa using hc)
      refine ⟨dfin, ?_, h1, h2, h3⟩
      simp [run, hdec, hrun]

/-! ## Totality, progress and resynchronisation -/

theorem diagnose_src (d : UTF8Decoder) : (diagnose d).2.src = d.src ∧ (diagnose d).2.end_ = d.end_ := by
  simp [diagnose]

theorem diagnose_status (d : UTF8Decoder) :
    (diagnose d).1 ≠ Status.pending ∧ (diagnose d).1 ≠ Status.idle ∧
    (diagnose d).1 ≠ Status.invalid_sequence := by
  rw [diagnose_eq]
  simp only [expected_status]
  cases codepoint_semantic d.cp
  case ordinary => simp only []; split_ifs <;> simp
  all_goals simp

theorem decode_loop_total (mem : Mem) : ∀ (rounds : Nat) (d : UTF8Decoder),
    d.src ≤ d.end_ → d.end_ - d.src < rounds → ∃ r, decode_loop mem rounds d = some r := by
  intro rounds
  induction rounds with
  | zero => intro d _ h; omega
  | succ n ih =>
    intro d hle hr
    obtain ⟨src, e, cp, len, pos⟩ := d
    simp only at hle hr
    simp only [decode_loop, UTF8Decoder.empty, UTF8Decoder.peek, UTF8Decoder.consume]
    split_ifs with h1 h2 h3
    · exact ⟨_, rfl⟩
    · exact ⟨_, rfl⟩
    · have h2' : src ≠ e := by simpa using h2
      exact ih _ (by simp; omega) (by simp; omega)
    · exact ⟨_, rfl⟩

theorem decode_total (mem : Mem) (d : UTF8Decoder) (h : d.src ≤ d.end_) :
    ∃ r, d.decode mem = some r := by
  obtain ⟨src, e, cp, len, pos⟩ := d
  simp only at h
  simp only [UTF8Decoder.decode, UTF8Decoder.empty, UTF8Decoder.peek, UTF8Decoder.consume]
  split_ifs with h1 h2 h3 h4
  · exact ⟨_, rfl⟩
  · exact ⟨_, rfl⟩
  · exact ⟨_, rfl⟩
  · have h2' : src ≠ e := by simpa using h2
    exact decode_loop_total mem _ _ (by simp; omega) (by simp)
  · exact decode_loop_total mem _ _ h (by simp)

theorem decode_loop_progress (mem : Mem) : ∀ (rounds : Nat) (d : UTF8Decoder) (st : Status)
    (d2 : UTF8Decoder), decode_loop mem rounds d = some (st, d2) →
    d.src ≤ d2.src ∧ d2.end_ = d.end_ ∧
    (st ≠ Status.pending → d.pos ≠ d.len →
      d.src < d2.src ∨
      (st = Status.invalid_sequence ∧ d2.src ≠ d2.end_ ∧ ¬ cont_form (mem d2.src % 256))) := by
  intro rounds
  induction rounds with
  | zero => intro d st d2 h; simp [decode_loop] at h
  | succ n ih =>
    intro d st d2 h
    obtain ⟨src, e, cp, len, pos⟩ := d
    simp only [decode_loop, UTF8Decoder.empty, UTF8Decoder.peek, UTF8Decoder.consume] at h
    split_ifs at h with h1 h2 h3
    · simp only [Option.some.injEq, Prod.mk.injEq] at h
      obtain ⟨rfl, rfl⟩ := h
      simp
    · simp only [Option.some.injEq, Prod.mk.injEq] at h
      obtain ⟨rfl, rfl⟩ := h
      have h2' : src ≠ e := by simpa using h2
      refine ⟨Nat.le_refl _, rfl, fun _ _ => Or.inr ⟨rfl, h2', ?_⟩⟩
      exact h3
    · have := ih _ st d2 h
      dsimp only at this ⊢
      refine ⟨by omega, this.2.1, fun _ _ => Or.inl (by omega)⟩
    · simp only [Option.some.injEq] at h
      have hs := diagnose_src ⟨src, e, cp, len, pos + 1⟩
      rw [h] at hs
      simp only at hs
      simp only [ne_eq, Decidable.not_not] at h1
      dsimp only
      refine ⟨by omega, hs.2, fun _ hne => absurd h1 hne⟩

theorem decode_progress_core (mem : Mem) (d : UTF8Decoder) (st : Status) (d2 : UTF8Decoder)
    (hdec : d.decode mem = some (st, d2)) :
    d.src ≤ d2.src ∧ d2.end_ = d.end_ ∧
    (d.len = 0 ∨ d.pos ≠ d.len → st ≠ Status.pending → st ≠ Status.idle →
      d.src < d2.src ∨
      (st = Status.invalid_sequence ∧ d2.src ≠ d2.end_ ∧ ¬ cont_form (mem d2.src % 256))) := by
  obtain ⟨src, e, cp, len, pos⟩ := d
  simp only [UTF8Decoder.decode, UTF8Decoder.empty, UTF8Decoder.peek, UTF8Decoder.consume] at hdec
  split_ifs at hdec with h1 h2 h3 h4
  · simp only [Option.some.injEq, Prod.mk.injEq] at hdec
    obtain ⟨rfl, rfl⟩ := hdec
    simp
  · simp only [Option.some.injEq, Prod.mk.injEq] at hdec
    obtain ⟨rfl, rfl⟩ := hdec
    simp
  · simp only [Option.some.injEq, Prod.mk.injEq] at hdec
    obtain ⟨rfl, rfl⟩ := hdec
    simp
  · have := decode_loop_progress mem _ _ st d2 hdec
    dsimp only at this ⊢
    refine ⟨by omega, this.2.1, fun _ _ _ => Or.inl (by omega)⟩
  · have := decode_loop_progress mem _ _ st d2 hdec
    simp only at this h1
    refine ⟨this.1, this.2.1, fun hs hp _ => this.2.2 hp ?_⟩
    rcases hs with hs | hs
    · exact absurd hs h1
    · exact hs

theorem decode_idle_indep (mem : Mem) (d1 d2 : UTF8Decoder) (h1 : d1.len = 0) (h2 : d2.len = 0)
    (hs : d1.src = d2.src) (he : d1.end_ = d2.end_) (hne : d1.src ≠ d1.end_) :
    (d1.decode mem).map observe = (d2.decode mem).map observe := by
  obtain ⟨src, e, cp, len, pos⟩ := d1
  obtain ⟨src2, e2, cp2, len2, pos2⟩ := d2
  simp only at h1 h2 hs he hne
  subst h1 h2 hs he
  simp only [UTF8Decoder.decode, UTF8Decoder.empty, UTF8Decoder.peek, UTF8Decoder.consume, hne,
    if_true, if_false, decide_False, Bool.false_eq_true]
  split_ifs <;> simp [observe]

theorem decode_truncated (mem : Mem) (d : UTF8Decoder) (L lead : Nat) (conts : List Nat)
    (hidle : d.len = 0) (hL : 2 ≤ L ∧ L ≤ 6) (hlead : lead_form L lead)
    (hn : conts.length + 1 < L) (hc : ∀ c ∈ conts, cont_form c)
    (hh : holds mem d.src (lead :: conts)) (hend : d.src + 1 + conts.length < d.end_)
    (hx : ¬ cont_form (mem (d.src + 1 + conts.length) % 256)) :
    d.decode mem = some (Status.invalid_sequence,
      { src := d.src + 1 + conts.length, end_ := d.end_, cp := 0xfffd, len := 0,
        pos := conts.length + 2 }) := by
  obtain ⟨src, e, cp, len, pos⟩ := d
  simp only at hidle hend hh hx
  subst hidle
  obtain ⟨hscan, h80, _⟩ := lead_byte_facts L hL lead hlead
  simp only [holds] at hh
  have hse : src ≠ e := by omega
  have hL6 : ¬ (L > 6) := by omega
  have hloop := decode_loop_bad mem conts (e - (src + 1) + 1)
    ⟨src + 1, e, lead &&& (0xffffffff ^^^ lead_mask L), L, 1⟩ hh.2 hc
    (by simp; omega) (by simp; omega) hx (by omega)
  simp only [UTF8Decoder.decode, UTF8Decoder.empty, UTF8Decoder.peek, UTF8Decoder.consume,
    hse, hh.1, h80, hscan, hL6, if_true, if_false, decide_False, Bool.false_eq_true]
  rw [hloop]
  simp [Nat.add_comm 1]

theorem semantic_bad_iff (S : Nat) :
    codepoint_semantic S = CodepointSemantic.bad ↔ 0x10FFFF < S := by
  unfold codepoint_semantic
  split_ifs <;> simp <;> omega

theorem expected_status_facts (L S : Nat) :
    expected_status L S ≠ Status.invalid_sequence ∧ expected_status L S ≠ Status.pending ∧
    (expected_status L S = Status.bad_codepoint ↔ 0x10FFFF < S) := by
  rw [← semantic_bad_iff]
  simp only [expected_status]
  cases codepoint_semantic S
  case ordinary => simp only []; split_ifs <;> simp
  all_goals simp

/-! ## Surrogates, noncharacters and first bytes -/

theorem and_ffff (S : Nat) : S &&& 0xFFFF = S % 65536 :=
  Nat.and_pow_two_sub_one_eq_mod S 16

theorem surrogate_semantic (S : Nat) (h : 0xD800 ≤ S ∧ S ≤ 0xDFFF) :
    codepoint_semantic S = CodepointSemantic.lead_surrogate ∨
    codepoint_semantic S = CodepointSemantic.trail_surrogate := by
  unfold codepoint_semantic
  split_ifs <;> first | omega | simp

theorem surrogate_form (S : Nat) (h : 0xD800 ≤ S ∧ S ≤ 0xDFFF) :
    [0xE0 ||| (S >>> 12), 0x80 ||| ((S >>> 6) &&& 0x3F), 0x80 ||| (S &&& 0x3F)]
      = utf8_form 3 S := by
  have h12 : S >>> 12 = 13 := by
    rw [Nat.shiftRight_eq_div_pow]; simp only [Nat.reducePow]; omega
  have hlead : (0xE0 ||| 13 : Nat) = (254 <<< 4 % 2 ^ 32 ||| 13) % 256 := by decide
  simp only [utf8_form, cont_bytes, h12, Nat.reduceSub, Nat.reduceMul, Nat.shiftRight_zero,
    hlead]

theorem noncharacter_semantic (S : Nat) (hle : S ≤ 0x10FFFF)
    (h : (0xFDD0 ≤ S ∧ S ≤ 0xFDEF) ∨ S &&& 0xFFFF = 0xFFFE ∨ S &&& 0xFFFF = 0xFFFF) :
    codepoint_semantic S = CodepointSemantic.noncharacter ∧ 0x800 ≤ S := by
  rw [and_ffff] at h
  unfold codepoint_semantic
  rw [and_ffff]
  split_ifs <;> first | omega | (refine ⟨rfl, ?_⟩; omega)


theorem pow_bound_of_code_length (S L : Nat) (hL : 2 ≤ L ∧ L ≤ 6) (hle : S ≤ 0x10FFFF)
    (h : utf8_code_length S ≤ L) : S < 2 ^ (5 * L + 1) := by
  obtain ⟨h2, h6⟩ := hL
  have hc := code_length_cases S hle
  simp only [Nat.reducePow] at hc
  interval_cases L <;> simp only [Nat.reducePow, Nat.reduceMul, Nat.reduceAdd] <;> omega

theorem decode_utf8_form (mem : Mem) (d : UTF8Decoder) (L S : Nat) (hL : 2 ≤ L ∧ L ≤ 6)
    (hS : S < 2 ^ (5 * L + 1)) (hidle : d.len = 0) (hh : holds mem d.src (utf8_form L S))
    (hend : d.src + L ≤ d.end_) :
    d.decode mem = some (expected_status L S,
      { src := d.src + L, end_ := d.end_, cp := S, len := 0, pos := L + 1 }) := by
  obtain ⟨lead, conts, hform, hlf, hlen, hcf, _, hasm⟩ := utf8_form_facts L S hL hS
  rw [hform] at hh
  have hdec := decode_sequence mem d L lead conts hidle hL hlf hlen hcf hh hend
  rw [hasm] at hdec
  exact hdec

set_option maxRecDepth 100000 in
theorem non_lead_facts : ∀ b, b < 256 → (0x80 ≤ b ∧ b ≤ 0xBF) ∨ b = 0xFE ∨ b = 0xFF →
    b &&& 0x80 ≠ 0 ∧ (scan_lead b 5 2 0xe0).1 > 6 := by
  decide

set_option maxRecDepth 100000 in
theorem lead_length_facts : ∀ b, b < 256 → 0xC0 ≤ b → b ≤ 0xFD →
    lead_form (lead_length b) b ∧ 2 ≤ lead_length b ∧ lead_length b ≤ 6 := by
  decide

theorem decode_non_lead (mem : Mem) (d : UTF8Decoder) (hidle : d.len = 0)
    (hne : d.src ≠ d.end_)
    (hb : (0x80 ≤ mem d.src % 256 ∧ mem d.src % 256 ≤ 0xBF) ∨ mem d.src % 256 = 0xFE ∨
      mem d.src % 256 = 0xFF) :
    d.decode mem = some (Status.invalid_sequence,
      { src := d.src + 1, end_ := d.end_, cp := 0xfffd, len := 0, pos := d.pos }) := by
  obtain ⟨h80, hscan⟩ := non_lead_facts _ (Nat.mod_lt _ (by decide)) hb
  obtain ⟨src, e, cp, len, pos⟩ := d
  dsimp only at hidle hne h80 hscan ⊢
  subst hidle
  simp [UTF8Decoder.decode, UTF8Decoder.empty, UTF8Decoder.peek, UTF8Decoder.consume,
    hne, h80, hscan]

theorem decode_lead (mem : Mem) (d : UTF8Decoder) (L : Nat) (hidle : d.len = 0)
    (hne : d.src ≠ d.end_) (hL : 2 ≤ L ∧ L ≤ 6) (hlead : lead_form L (mem d.src % 256)) :
    d.decode mem = decode_loop mem (d.end_ - (d.src + 1) + 1)
      { src := d.src + 1, end_ := d.end_, cp := (mem d.src % 256) % 2 ^ (7 - L),
        len := L, pos := 1 } := by
  obtain ⟨hscan, h80, hpay⟩ := lead_byte_facts L hL _ hlead
  obtain ⟨src, e, cp, len, pos⟩ := d
  dsimp only at hidle hne h80 hscan hpay ⊢
  subst hidle
  have hL6 : ¬ (L > 6) := by omega
  simp only [UTF8Decoder.decode, UTF8Decoder.empty, UTF8Decoder.peek, UTF8Decoder.consume,
    hne, h80, hscan, hL6, hpay, if_true, if_false, decide_False, Bool.false_eq_true]

/-! ## The state invariant -/

theorem decode_pending_empty (mem : Mem) (d : UTF8Decoder) (hlen : d.len ≠ 0)
    (hpos : d.pos ≠ d.len) (hempty : d.src = d.end_) :
    d.decode mem = some (Status.pending, { d with pos := d.pos + 1 }) := by
  obtain ⟨src, e, cp, len, pos⟩ := d
  dsimp only at hlen hpos hempty ⊢
  subst hempty
  simp [UTF8Decoder.decode, decode_loop, UTF8Decoder.empty, hlen, hpos]

theorem decode_loop_inv (mem : Mem) : ∀ (rounds : Nat) (d : UTF8Decoder) (st : Status)
    (d2 : UTF8Decoder), decode_loop mem rounds d = some (st, d2) →
    2 ≤ d.len → d.len ≤ 6 → 1 ≤ d.pos → d.pos ≤ d.len →
    state_inv d2 ∧ (d2.len ≠ 0 ↔ st = Status.pending) := by
  intro rounds
  induction rounds with
  | zero => intro d st d2 h; simp [decode_loop] at h
  | succ n ih =>
    intro d st d2 h h2 h6 h1 hp
    obtain ⟨src, e, cp, len, pos⟩ := d
    dsimp only at h2 h6 h1 hp
    simp only [decode_loop, UTF8Decoder.empty, UTF8Decoder.peek, UTF8Decoder.consume] at h
    split_ifs at h with c1 c2 c3
    · simp only [Option.some.injEq, Prod.mk.injEq] at h
      obtain ⟨rfl, rfl⟩ := h
      refine ⟨Or.inr ⟨h2, h6, ?_, ?_⟩, ?_⟩
      · dsimp only; omega
      · dsimp only; omega
      · dsimp only
        constructor
        · intro _; rfl
        · intro _; omega
    · simp only [Option.some.injEq, Prod.mk.injEq] at h
      obtain ⟨rfl, rfl⟩ := h
      exact ⟨Or.inl rfl, by simp⟩
    · exact ih _ st d2 h h2 h6 (by dsimp only; omega) (by dsimp only; omega)
    · simp only [Option.some.injEq] at h
      have hs := diagnose_status ⟨src, e, cp, len, pos + 1⟩
      have he := diagnose_eq ⟨src, e, cp, len, pos + 1⟩
      rw [h] at hs he
      simp only [Prod.mk.injEq] at he
      obtain ⟨_, rfl⟩ := he
      exact ⟨Or.inl rfl, by simpa using hs.1⟩

set_option maxRecDepth 100000 in
theorem scan_lead_facts : ∀ b, b < 256 → b &&& 0x80 ≠ 0 → (scan_lead b 5 2 0xe0).1 ≤ 6 →
    2 ≤ (scan_lead b 5 2 0xe0).1 ∧ lead_form (scan_lead b 5 2 0xe0).1 b ∧
    (scan_lead b 5 2 0xe0).2 = lead_mask (scan_lead b 5 2 0xe0).1 := by
  decide

theorem decode_inv (mem : Mem) (d : UTF8Decoder) (st : Status) (d2 : UTF8Decoder)
    (hinv : state_inv d) (hdec : d.decode mem = some (st, d2)) :
    state_inv d2 ∧ (d2.len ≠ 0 ↔ st = Status.pending) := by
  obtain ⟨src, e, cp, len, pos⟩ := d
  simp only [UTF8Decoder.decode, UTF8Decoder.empty, UTF8Decoder.peek, UTF8Decoder.consume] at hdec
  split_ifs at hdec with c1 c2 c3 c4
  · simp only [Option.some.injEq, Prod.mk.injEq] at hdec
    obtain ⟨rfl, rfl⟩ := hdec
    exact ⟨Or.inl c1, by simp [c1]⟩
  · simp only [Option.some.injEq, Prod.mk.injEq] at hdec
    obtain ⟨rfl, rfl⟩ := hdec
    exact ⟨Or.inl c1, by simp [c1]⟩
  · simp only [Option.some.injEq, Prod.mk.injEq] at hdec
    obtain ⟨rfl, rfl⟩ := hdec
    exact ⟨Or.inl rfl, by simp⟩
  · have hf := scan_lead_facts (mem src % 256) (Nat.mod_lt _ (by decide)) c3 (by omega)
    exact decode_loop_inv mem _ _ st d2 hdec hf.1 (by dsimp only; omega) (Nat.le_refl _)
      (by dsimp only; omega)
  · rcases hinv with h | ⟨h2, h6, h1, hp⟩
    · exact absurd h c1
    · exact decode_loop_inv mem _ _ st d2 hdec h2 h6 h1 hp

/-! ## Byte layout, draining and canonical forms -/

theorem holds_get (mem : Mem) : ∀ (bs : List Nat) (a i b : Nat),
    holds mem a bs → bs[i]? = some b → mem (a + i) % 256 = b := by
  intro bs
  induction bs with
  | nil => intro a i b _ h; simp at h
  | cons x xs ih =>
    intro a i b hh h
    cases i with
    | zero =>
      simp only [List.getElem?_cons_zero, Option.some.injEq] at h
      subst h
      exact hh.1
    | succ j =>
      simp only [List.getElem?_cons_succ] at h
      have := ih (a + 1) j b hh.2 h
      have e : a + (j + 1) = a + 1 + j := by omega
      rw [e]; exact this

theorem poke_list_get : ∀ (bs : List Nat) (a : Nat) (mem : Mem) (i b : Nat),
    bs[i]? = some b → poke_list mem a bs (a + i) = b % 256 := by
  intro bs
  induction bs with
  | nil => intro a mem i b h; simp at h
  | cons x xs ih =>
    intro a mem i b h
    cases i with
    | zero =>
      simp only [List.getElem?_cons_zero, Option.some.injEq] at h
      subst h
      show poke_list (poke mem a x) (a + 1) xs (a + 0) = x % 256
      rw [poke_list_frame xs (a + 1) (poke mem a x) (a + 0) (Or.inl (by omega))]
      simp [poke]
    | succ j =>
      simp only [List.getElem?_cons_succ] at h
      have := ih (a + 1) (poke mem a x) j b h
      have e : a + (j + 1) = a + 1 + j := by omega
      rw [e]; exact this

theorem cont_bytes_get (S : Nat) : ∀ (n i : Nat), i < n →
    (cont_bytes S n)[i]? = some (0x80 ||| ((S >>> (6 * (n - 1 - i))) &&& 0x3f)) := by
  intro n
  induction n with
  | zero => intro i h; omega
  | succ n ih =>
    intro i h
    cases i with
    | zero => simp [cont_bytes]
    | succ j =>
      simp only [cont_bytes, List.getElem?_cons_succ]
      rw [ih j (by omega)]
      have e : n + 1 - 1 - (j + 1) = n - 1 - j := by omega
      rw [e]

theorem holds_lt (mem : Mem) : ∀ (bs : List Nat) (a : Nat), holds mem a bs →
    ∀ b ∈ bs, b < 256 := by
  intro bs
  induction bs with
  | nil => intro a _ b hb; simp at hb
  | cons x xs ih =>
    intro a hh b hb
    simp only [List.mem_cons] at hb
    rcases hb with rfl | hb
    · rw [← hh.1]; exact Nat.mod_lt _ (by decide)
    · exact ih (a + 1) hh.2 b hb

theorem decode_loop_src_le_end (mem : Mem) : ∀ (rounds : Nat) (d : UTF8Decoder) (st : Status)
    (d2 : UTF8Decoder), decode_loop mem rounds d = some (st, d2) → d.src ≤ d.end_ →
    d2.src ≤ d2.end_ := by
  intro rounds
  induction rounds with
  | zero => intro d st d2 h; simp [decode_loop] at h
  | succ n ih =>
    intro d st d2 h hle
    obtain ⟨src, e, cp, len, pos⟩ := d
    dsimp only at hle
    simp only [decode_loop, UTF8Decoder.empty, UTF8Decoder.peek, UTF8Decoder.consume] at h
    split_ifs at h with c1 c2 c3
    · simp only [Option.some.injEq, Prod.mk.injEq] at h
      obtain ⟨rfl, rfl⟩ := h
      exact hle
    · simp only [Option.some.injEq, Prod.mk.injEq] at h
      obtain ⟨rfl, rfl⟩ := h
      exact hle
    · have c2' : src ≠ e := by simpa using c2
      exact ih _ st d2 h (by dsimp only; omega)
    · simp only [Option.some.injEq] at h
      have hs := diagnose_src ⟨src, e, cp, len, pos + 1⟩
      rw [h] at hs
      dsimp only at hs
      omega

theorem decode_idle_advance (mem : Mem) (d : UTF8Decoder) (st : Status) (d2 : UTF8Decoder)
    (hidle : d.len = 0) (hne : d.src ≠ d.end_) (hdec : d.decode mem = some (st, d2)) :
    d.src + 1 ≤ d2.src ∧ d2.end_ = d.end_ ∧ (d.src ≤ d.end_ → d2.src ≤ d2.end_) := by
  obtain ⟨src, e, cp, len, pos⟩ := d
  dsimp only at hidle hne ⊢
  subst hidle
  simp only [UTF8Decoder.decode, UTF8Decoder.empty, UTF8Decoder.peek, UTF8Decoder.consume,
    hne, if_true, if_false, decide_False, Bool.false_eq_true] at hdec
  split_ifs at hdec with c3 c4
  · simp only [Option.some.injEq, Prod.mk.injEq] at hdec
    obtain ⟨rfl, rfl⟩ := hdec
    dsimp only
    omega
  · simp only [Option.some.injEq, Prod.mk.injEq] at hdec
    obtain ⟨rfl, rfl⟩ := hdec
    dsimp only
    omega
  · have h1 := decode_loop_progress mem _ _ st d2 hdec
    have h2 := decode_loop_src_le_end mem _ _ st d2 hdec
    dsimp only at h1 h2
    refine ⟨h1.1, h1.2.1, fun h => h2 (by omega)⟩

theorem run_drains (mem : Mem) : ∀ (calls : Nat) (d : UTF8Decoder), d.len = 0 →
    d.src ≤ d.end_ → d.end_ - d.src < calls →
    ∃ evs st dfin, run mem calls d = some (evs, st, dfin) ∧ evs.length ≤ d.end_ - d.src ∧
      (st = Status.idle ∨ st = Status.pending) ∧ d.src ≤ dfin.src ∧ dfin.src ≤ d.end_ := by
  intro calls
  induction calls with
  | zero => intro d _ _ h; omega
  | succ n ih =>
    intro d hidle hle hc
    obtain ⟨⟨st, d1⟩, hdec⟩ := decode_total mem d hle
    by_cases hst : st = Status.idle ∨ st = Status.pending
    · have hp := decode_progress_core mem d st d1 hdec
      have hend : d1.src ≤ d.end_ := by
        by_cases he : d.src = d.end_
        · rw [decode_idle_empty mem d hidle he] at hdec
          simp only [Option.some.injEq, Prod.mk.injEq] at hdec
          rw [← hdec.2]; exact hle
        · have := decode_idle_advance mem d st d1 hidle he hdec
          have h3 := this.2.2 hle
          omega
      exact ⟨[], st, d1, by simp [run, hdec, hst], by simp, hst, hp.1, hend⟩
    · have hne : d.src ≠ d.end_ := by
        intro he
        rw [decode_idle_empty mem d hidle he] at hdec
        simp only [Option.some.injEq, Prod.mk.injEq] at hdec
        exact hst (Or.inl hdec.1.symm)
      have hadv := decode_idle_advance mem d st d1 hidle hne hdec
      have hinv := decode_inv mem d st d1 (Or.inl hidle) hdec
      have hlen : d1.len = 0 := by
        by_contra hl
        exact hst (Or.inr (hinv.2.1 hl))
      have h3 := hadv.2.2 hle
      obtain ⟨evs, st2, dfin, hrun, hl, hs, h1, h2⟩ := ih d1 hlen h3 (by omega)
      refine ⟨(st, d1.cp) :: evs, st2, dfin, ?_, ?_, hs, by omega, by omega⟩
      · simp [run, hdec, hst, hrun]
      · simp only [List.length_cons]; omega

theorem decode_loop_complete (mem : Mem) : ∀ (rounds : Nat) (d : UTF8Decoder) (st : Status)
    (d2 : UTF8Decoder), decode_loop mem rounds d = some (st, d2) →
    st ≠ Status.pending → st ≠ Status.invalid_sequence → d.pos ≤ d.len →
    ∃ cs, holds mem d.src cs ∧ (∀ c ∈ cs, cont_form c) ∧ d.pos + cs.length = d.len ∧
      (st, d2) = diagnose
        { src := d.src + cs.length, end_ := d.end_, cp := accumulate d.cp cs,
          len := d.len, pos := d.len + 1 } := by
  intro rounds
  induction rounds with
  | zero => intro d st d2 h; simp [decode_loop] at h
  | succ n ih =>
    intro d st d2 h hp hi hpos
    obtain ⟨src, e, cp, len, pos⟩ := d
    dsimp only at hpos ⊢
    simp only [decode_loop, UTF8Decoder.empty, UTF8Decoder.peek, UTF8Decoder.consume] at h
    split_ifs at h with c1 c2 c3
    · simp only [Option.some.injEq, Prod.mk.injEq] at h
      exact absurd h.1.symm hp
    · simp only [Option.some.injEq, Prod.mk.injEq] at h
      exact absurd h.1.symm hi
    · obtain ⟨cs, hh, hc, hl, hs⟩ := ih _ st d2 h hp hi (by dsimp only; omega)
      dsimp only at hh hl hs
      simp only [ne_eq, Decidable.not_not] at c3
      refine ⟨(mem src % 256) :: cs, ⟨rfl, hh⟩, ?_, ?_, ?_⟩
      · intro c hcm
        simp only [List.mem_cons] at hcm
        rcases hcm with rfl | hcm
        · exact c3
        · exact hc c hcm
      · simp only [List.length_cons]; omega
      · rw [hs]
        simp only [accumulate, List.foldl_cons, List.length_cons]
        have e1 : src + 1 + cs.length = src + (cs.length + 1) := by omega
        rw [e1]
    · simp only [ne_eq, Decidable.not_not] at c1
      simp only [Option.some.injEq] at h
      subst c1
      exact ⟨[], trivial, by simp, by simp, by simp [accumulate, h]⟩

set_option maxRecDepth 100000 in
theorem lead_rebuild (L : Nat) (hL : 2 ≤ L ∧ L ≤ 6) (b : Nat) (h : lead_form L b) :
    (((0xfe <<< (7 - L)) % 2 ^ 32) ||| (b % 2 ^ (7 - L))) % 256 = b := by
  obtain ⟨h2, h6⟩ := hL
  obtain ⟨hb, hf⟩ := h
  revert hf
  interval_cases L <;> (revert b; decide)

set_option maxRecDepth 100000 in
theorem cont_rebuild : ∀ c, c < 256 → cont_form c → 0x80 ||| (c % 64) = c := by
  decide

theorem foldl_payload : ∀ (cs : List Nat) (s0 : Nat),
    (cs.foldl (fun s c => s * 64 + c % 64) s0) / 64 ^ cs.length = s0 ∧
    cont_bytes (cs.foldl (fun s c => s * 64 + c % 64) s0) cs.length
      = cs.map (fun c => 0x80 ||| (c % 64)) := by
  intro cs
  induction cs with
  | nil => intro s0; simp [cont_bytes]
  | cons c cs ih =>
    intro s0
    obtain ⟨h1, h2⟩ := ih (s0 * 64 + c % 64)
    simp only [List.foldl_cons, List.length_cons, List.map_cons, cont_bytes]
    have hc : c % 64 < 64 := Nat.mod_lt _ (by decide)
    constructor
    · rw [Nat.pow_succ, ← Nat.div_div_eq_div_mul, h1]
      omega
    · rw [h2, and_63, Nat.shiftRight_eq_div_pow, Nat.pow_mul]
      simp only [Nat.reducePow]
      rw [h1]
      have : (s0 * 64 + c % 64) % 64 = c % 64 := by omega
      rw [this]

theorem form_rebuild (L lead : Nat) (conts : List Nat) (hL : 2 ≤ L ∧ L ≤ 6)
    (hlead : lead_form L lead) (hn : conts.length + 1 = L)
    (hc : ∀ c ∈ conts, cont_form c ∧ c < 256) :
    utf8_form L (assemble L lead conts) = lead :: conts := by
  obtain ⟨h1, h2⟩ := foldl_payload conts (lead % 2 ^ (7 - L))
  have hlen : L - 1 = conts.length := by omega
  simp only [utf8_form, assemble]
  have h64 : (2 : Nat) ^ 6 = 64 := by decide
  rw [hlen, h2, Nat.shiftRight_eq_div_pow, Nat.pow_mul, h64]
  rw [h1, lead_rebuild L hL lead hlead]
  congr 1
  have : ∀ c ∈ conts, (fun c => 0x80 ||| (c % 64)) c = id c := by
    intro c hcm
    exact cont_rebuild c (hc c hcm).2 (hc c hcm).1
  rw [List.map_congr_left this, List.map_id]


set_option maxRecDepth 100000 in
theorem ascii_facts : ∀ b, b < 256 → b &&& 0x80 = 0 → b < 128 := by
  decide

theorem ascii_ordinary (b : Nat) (h : b < 128) :
    codepoint_semantic b = CodepointSemantic.ordinary ∧ utf8_code_length b = 1 := by
  unfold codepoint_semantic utf8_code_length
  rw [and_ffff]
  constructor
  · split_ifs <;> first | rfl | omega
  · rw [if_pos h]

theorem expected_got_codepoint (L S : Nat) (h : expected_status L S = Status.got_codepoint) :
    codepoint_semantic S = CodepointSemantic.ordinary ∧ L ≤ utf8_code_length S := by
  unfold expected_status at h
  cases hs : codepoint_semantic S <;> rw [hs] at h <;> simp at h
  exact ⟨rfl, h⟩

theorem got_codepoint_inversion (mem : Mem) (d d2 : UTF8Decoder) (hidle : d.len = 0)
    (hdec : d.decode mem = some (Status.got_codepoint, d2)) :
    codepoint_semantic d2.cp = CodepointSemantic.ordinary ∧
    d2.src = d.src + utf8_code_length d2.cp ∧ utf8_code_length d2.cp ≤ 4 ∧
    holds mem d.src (utf8_bytes d2.cp) := by
  obtain ⟨src, e, cp, len, pos⟩ := d
  dsimp only at hidle ⊢
  subst hidle
  simp only [UTF8Decoder.decode, UTF8Decoder.empty, UTF8Decoder.peek, UTF8Decoder.consume,
    if_true] at hdec
  split_ifs at hdec with c2 c3 c4
  · simp at hdec
  · simp only [Option.some.injEq, Prod.mk.injEq, true_and] at hdec
    subst hdec
    have hb := ascii_facts _ (Nat.mod_lt _ (by decide)) c3
    obtain ⟨ho, hl⟩ := ascii_ordinary _ hb
    dsimp only
    refine ⟨ho, by rw [hl], by rw [hl]; decide, ?_⟩
    simp only [utf8_bytes, hl, if_true, (low7_facts _ hb).1]
    exact ⟨rfl, trivial⟩
  · simp at hdec
  · have hf := scan_lead_facts (mem src % 256) (Nat.mod_lt _ (by decide)) c3 (by omega)
    generalize hLdef : (scan_lead (mem src % 256) 5 2 0xe0).1 = L at hf hdec c4
    obtain ⟨hL2, hlf, hmask⟩ := hf
    have hL : 2 ≤ L ∧ L ≤ 6 := ⟨hL2, by omega⟩
    obtain ⟨_, _, hpay⟩ := lead_byte_facts L hL _ hlf
    rw [hmask, hpay] at hdec
    obtain ⟨cs, hh, hc, hl, hres⟩ := decode_loop_complete mem _ _ _ d2 hdec (by simp) (by simp)
      (by dsimp only; omega)
    dsimp only at hh hl hres
    rw [diagnose_eq] at hres
    have hacc := accumulate_eq cs (7 - L) ((mem src % 256) % 2 ^ (7 - L))
      (Nat.mod_lt _ (Nat.pos_pow_of_pos _ (by decide))) (by omega)
    simp only [Prod.mk.injEq] at hres
    obtain ⟨hst, hd2⟩ := hres
    subst hd2
    dsimp only at hst ⊢
    have hasm : accumulate ((mem src % 256) % 2 ^ (7 - L)) cs
        = assemble L (mem src % 256) cs := hacc.1
    rw [hasm] at hst ⊢
    obtain ⟨hord, hge⟩ := expected_got_codepoint L _ hst.symm
    have hle := ordinary_le _ hord
    have hbound : assemble L (mem src % 256) cs < 2 ^ (5 * L + 1) := by
      have := hacc.2
      rw [hasm] at this
      have e1 : 7 - L + 6 * cs.length = 5 * L + 1 := by omega
      rw [e1] at this
      exact this
    have hLeq : utf8_code_length (assemble L (mem src % 256) cs) = L := by
      have hcc := code_length_cases _ hle
      obtain ⟨h2, h6⟩ := hL
      simp only [Nat.reducePow] at hcc
      interval_cases L <;> simp only [Nat.reducePow, Nat.reduceMul, Nat.reduceAdd] at hbound <;>
        unfold utf8_code_length at hge ⊢ <;> split_ifs at hge ⊢ <;> omega
    have hN1 : utf8_code_length (assemble L (mem src % 256) cs) ≠ 1 := by omega
    have hcs : ∀ c ∈ cs, cont_form c ∧ c < 256 :=
      fun c hcm => ⟨hc c hcm, holds_lt mem cs (src + 1) hh c hcm⟩
    refine ⟨hord, ?_, ?_, ?_⟩
    · rw [hLeq]; omega
    · have hcc := code_length_cases _ hle
      omega
    · have hL1 : ¬ (L = 1) := by omega
      simp only [utf8_bytes, hLeq, hL1, if_false]
      rw [form_rebuild L _ cs hL hlf (by omega) hcs]
      exact ⟨rfl, hh⟩

/-! ## Claims -/

/-- C1 (round trip): for every ordinary scalar `S`, `utf8_encode` into a
buffer with at least 4 bytes of headroom returns `dest + utf8_code_length S`
and touches no byte outside these `utf8_code_length S` bytes; an idle decoder
given exactly these bytes with `set_source` returns got_codepoint on its first
`decode`, with the accumulator equal to `S` and the cursor at the end of the
bytes, and the next `decode` returns idle. -/
theorem encode_decode_round_trip (mem : Mem) (S dest limit : Nat) (d0 : UTF8Decoder)
    (hord : codepoint_semantic S = CodepointSemantic.ordinary)
    (hroom : 4 ≤ (limit : Int) - (dest : Int)) (hidle : d0.len = 0) (hdest : dest ≠ 0) :
    ∃ d1 d2,
      (utf8_encode mem S dest limit).1 = dest + utf8_code_length S ∧
      (∀ x, x < dest ∨ dest + utf8_code_length S ≤ x →
        (utf8_encode mem S dest limit).2 x = mem x) ∧
      d0.set_source dest (utf8_encode mem S dest limit).1 = .ok d1 ∧
      d1.decode (utf8_encode mem S dest limit).2 = some (Status.got_codepoint, d2) ∧
      d2.cp = S ∧ d2.src = dest + utf8_code_length S ∧ d2.src = d2.end_ ∧ d2.len = 0 ∧
      d2.decode (utf8_encode mem S dest limit).2 = some (Status.idle, d2) := by
  have hle := ordinary_le S hord
  rw [utf8_encode_ok mem S dest limit hord hroom]
  have hset := set_source_ok d0 dest (dest + utf8_code_length S) hdest (by omega)
  have hh := holds_poke_list (utf8_bytes S) dest mem (utf8_bytes_lt S hle)
  have hdec := decode_utf8_bytes (poke_list mem dest (utf8_bytes S))
    { d0 with src := dest, end_ := dest + utf8_code_length S } S hord hidle hh (Nat.le_refl _)
  refine ⟨_, _, rfl, ?_, hset, hdec, rfl, rfl, rfl, rfl, ?_⟩
  · intro x hx
    exact poke_list_frame _ _ _ _ (by rw [utf8_bytes_length S hle]; exact hx)
  · exact decode_idle_empty _ _ rfl rfl

/-- Witness of `encode_decode_round_trip` at the snowman U+2603, encoded at
address 100 with 4 bytes of room. -/
theorem encode_decode_round_trip_witness :
    ∃ d1 d2,
      (utf8_encode (image 100 []) 0x2603 100 104).1 = 100 + utf8_code_length 0x2603 ∧
      (∀ x, x < 100 ∨ 100 + utf8_code_length 0x2603 ≤ x →
        (utf8_encode (image 100 []) 0x2603 100 104).2 x = image 100 [] x) ∧
      UTF8Decoder.set_source ⟨0, 0, 0, 0, 0⟩ 100 (utf8_encode (image 100 []) 0x2603 100 104).1
        = .ok d1 ∧
      d1.decode (utf8_encode (image 100 []) 0x2603 100 104).2
        = some (Status.got_codepoint, d2) ∧
      d2.cp = 0x2603 ∧ d2.src = 100 + utf8_code_length 0x2603 ∧ d2.src = d2.end_ ∧
      d2.len = 0 ∧
      d2.decode (utf8_encode (image 100 []) 0x2603 100 104).2 = some (Status.idle, d2) :=
  encode_decode_round_trip (image 100 []) 0x2603 100 104 ⟨0, 0, 0, 0, 0⟩
    (by decide) (by decide) rfl (by decide)

/-- C2 (streaming equivalence) fails on the code: with `E2 98 83` in memory,
feeding `E2 98` returns pending but leaves `pos` already advanced to 3, so after
`set_source` on the piece `83` the next `decode` consumes nothing and returns
got_overlong with accumulator 0x98, and the byte `83` is then reported as an
invalid sequence; decoding the three bytes in one piece returns got_codepoint
with accumulator 0x2603. -/
theorem streaming_split_diverges :
    UTF8Decoder.decode (image 100 [0xE2, 0x98, 0x83]) ⟨100, 102, 0, 0, 0⟩
      = some (Status.pending, ⟨102, 102, 0x98, 3, 3⟩) ∧
    UTF8Decoder.set_source ⟨102, 102, 0x98, 3, 3⟩ 102 103 = .ok ⟨102, 103, 0x98, 3, 3⟩ ∧
    UTF8Decoder.decode (image 100 [0xE2, 0x98, 0x83]) ⟨102, 103, 0x98, 3, 3⟩
      = some (Status.got_overlong, ⟨102, 103, 0x98, 0, 4⟩) ∧
    drive (image 100 [0xE2, 0x98, 0x83]) 4 [(100, 102), (102, 103)] ⟨0, 0, 0, 0, 0⟩
      = some ([(Status.got_overlong, 0x98), (Status.invalid_sequence, 0xFFFD)],
          ⟨103, 103, 0xFFFD, 0, 4⟩) ∧
    drive (image 100 [0xE2, 0x98, 0x83]) 4 [(100, 103)] ⟨0, 0, 0, 0, 0⟩
      = some ([(Status.got_codepoint, 0x2603)], ⟨103, 103, 0x2603, 0, 4⟩) :=
  ⟨by decide, rfl, by decide, by decide, by decide⟩

/-- C3 (canonical lengths): for every 32-bit scalar `cp`, `utf8_code_length cp`
is 1 on `0x00..0x7F`, 2 on `0x80..0x7FF`, 3 on `0x800..0xFFFF`, 4 on
`0x10000..0x1FFFFF`, 5 on `0x200000..0x3FFFFFF`, 6 on `0x4000000..0x7FFFFFFF`
and 0 from `0x80000000` on; the function is total and its result is at most 6. -/
theorem utf8_code_length_canonical (cp : Nat) (h32 : cp < 2 ^ 32) :
    (cp ≤ 0x7F → utf8_code_length cp = 1) ∧
    (0x80 ≤ cp ∧ cp ≤ 0x7FF → utf8_code_length cp = 2) ∧
    (0x800 ≤ cp ∧ cp ≤ 0xFFFF → utf8_code_length cp = 3) ∧
    (0x10000 ≤ cp ∧ cp ≤ 0x1FFFFF → utf8_code_length cp = 4) ∧
    (0x200000 ≤ cp ∧ cp ≤ 0x3FFFFFF → utf8_code_length cp = 5) ∧
    (0x4000000 ≤ cp ∧ cp ≤ 0x7FFFFFFF → utf8_code_length cp = 6) ∧
    (0x80000000 ≤ cp → utf8_code_length cp = 0) ∧
    utf8_code_length cp ≤ 6 := by
  unfold utf8_code_length
  refine ⟨?_, ?_, ?_, ?_, ?_, ?_, ?_, ?_⟩ <;> intros <;> split_ifs <;> omega

/-- Witness of `utf8_code_length_canonical` at the snowman U+2603. -/
theorem utf8_code_length_canonical_witness :
    (0x2603 : Nat) < 2 ^ 32 ∧ utf8_code_length 0x2603 = 3 ∧ utf8_code_length 0x2603 ≤ 6 :=
  ⟨by decide,
   (utf8_code_length_canonical 0x2603 (by decide)).2.2.1 (by decide),
   (utf8_code_length_canonical 0x2603 (by decide)).2.2.2.2.2.2.2⟩

/-- C4 (encoder refusal): whenever `limit - dest < 4` or the semantic class of
the scalar is not ordinary, `utf8_encode` returns `dest` unchanged and leaves
the whole memory as it was. -/
theorem utf8_encode_refusal (mem : Mem) (S dest limit : Nat)
    (h : (limit : Int) - (dest : Int) < 4 ∨ codepoint_semantic S ≠ CodepointSemantic.ordinary) :
    utf8_encode mem S dest limit = (dest, mem) := by
  unfold utf8_encode
  rcases h with h | h
  · rw [if_pos h]
  · have : is_codepoint_ordinary S = false := by simp [is_codepoint_ordinary, h]
    simp [this]

/-- Witness of `utf8_encode_refusal`: the surrogate U+D800 with ample room, and
the letter `A` with three bytes of room. -/
theorem utf8_encode_refusal_witness :
    codepoint_semantic 0xD800 ≠ CodepointSemantic.ordinary ∧
    utf8_encode (image 100 []) 0xD800 100 200 = (100, image 100 []) ∧
    utf8_encode (image 100 []) 0x41 100 103 = (100, image 100 []) :=
  ⟨by decide,
   utf8_encode_refusal (image 100 []) 0xD800 100 200 (Or.inr (by decide)),
   utf8_encode_refusal (image 100 []) 0x41 100 103 (Or.inl (by decide))⟩

/-- C5 (sequence round trip): for every list of ordinary scalars encoded one
after the other by `utf8_encode` (four bytes of room reserved per scalar), an
idle decoder given the written bytes with `set_source` returns got_codepoint
once per scalar, with the accumulators equal to the scalars in order, and
then returns idle. -/
theorem sequence_round_trip (mem : Mem) (Ss : List Nat) (dest limit calls : Nat)
    (d0 : UTF8Decoder)
    (hord : ∀ S ∈ Ss, codepoint_semantic S = CodepointSemantic.ordinary)
    (hroom : dest + 4 * Ss.length ≤ limit) (hidle : d0.len = 0) (hdest : dest ≠ 0)
    (hcalls : Ss.length < calls) :
    ∃ d1 dfin,
      d0.set_source dest (encode_all Ss mem dest limit).1 = .ok d1 ∧
      run (encode_all Ss mem dest limit).2 calls d1 =
        some (Ss.map (fun S => (Status.got_codepoint, S)), Status.idle, dfin) := by
  rw [encode_all_eq Ss mem dest limit hord hroom]
  have hset := set_source_ok d0 dest (dest + (encoding Ss).length) hdest (by omega)
  have hh := holds_poke_list (encoding Ss) dest mem (encoding_lt Ss hord)
  obtain ⟨dfin, hrun, _⟩ := run_encoding (poke_list mem dest (encoding Ss)) Ss
    { d0 with src := dest, end_ := dest + (encoding Ss).length } calls hord hidle hh rfl hcalls
  exact ⟨_, dfin, hset, hrun⟩

/-- Witness of `sequence_round_trip`: the scalars 0x41, 0xA9, 0x2603, 0x1F600
are stored as `41 C2 A9 E2 98 83 F0 9F 98 80` and decoded back in order. -/
theorem sequence_round_trip_witness :
    encoding [0x41, 0xA9, 0x2603, 0x1F600]
      = [0x41, 0xC2, 0xA9, 0xE2, 0x98, 0x83, 0xF0, 0x9F, 0x98, 0x80] ∧
    ∃ d1 dfin,
      UTF8Decoder.set_source ⟨0, 0, 0, 0, 0⟩ 100
        (encode_all [0x41, 0xA9, 0x2603, 0x1F600] (image 100 []) 100 116).1 = .ok d1 ∧
      run (encode_all [0x41, 0xA9, 0x2603, 0x1F600] (image 100 []) 100 116).2 5 d1 =
        some ([0x41, 0xA9, 0x2603, 0x1F600].map (fun S => (Status.got_codepoint, S)),
          Status.idle, dfin) :=
  ⟨by decide,
   sequence_round_trip (image 100 []) [0x41, 0xA9, 0x2603, 0x1F600] 100 116 5 ⟨0, 0, 0, 0, 0⟩
     (by decide) (by decide) rfl (by decide) (by decide)⟩

/-- C6 (classification of a complete sequence): for `L` in 2..6, when the
source of an idle decoder starts with a lead byte of the L-byte form followed
by `L - 1` continuation bytes, one `decode` consumes exactly `L` bytes, leaves
the decoder idle, leaves the accumulator equal to the scalar `S` assembled from
the payload bits, and returns bad_codepoint, got_surrogate, got_noncharacter,
got_overlong or got_codepoint as `expected_status L S` prescribes. -/
theorem decode_classifies_complete_sequence (mem : Mem) (d : UTF8Decoder) (L lead : Nat)
    (conts : List Nat) (hidle : d.len = 0) (hL : 2 ≤ L ∧ L ≤ 6) (hlead : lead_form L lead)
    (hn : conts.length + 1 = L) (hc : ∀ c ∈ conts, cont_form c)
    (hh : holds mem d.src (lead :: conts)) (hend : d.src + L ≤ d.end_) :
    ∃ d2, d.decode mem = some (expected_status L (assemble L lead conts), d2) ∧
      d2.src = d.src + L ∧ d2.end_ = d.end_ ∧ d2.len = 0 ∧
      d2.cp = assemble L lead conts :=
  ⟨_, decode_sequence mem d L lead conts hidle hL hlead hn hc hh hend, rfl, rfl, rfl, rfl⟩

/-- Witness of `decode_classifies_complete_sequence`: `E2 98 83` is a complete
3-byte sequence carrying U+2603. -/
theorem decode_classifies_complete_sequence_witness :
    assemble 3 0xE2 [0x98, 0x83] = 0x2603 ∧
    expected_status 3 0x2603 = Status.got_codepoint ∧
    ∃ d2, UTF8Decoder.decode (image 100 [0xE2, 0x98, 0x83]) ⟨100, 103, 0, 0, 0⟩ =
        some (expected_status 3 (assemble 3 0xE2 [0x98, 0x83]), d2) ∧
      d2.src = 100 + 3 ∧ d2.end_ = 103 ∧ d2.len = 0 ∧
      d2.cp = assemble 3 0xE2 [0x98, 0x83] :=
  ⟨by decide, by decide,
   decode_classifies_complete_sequence (image 100 [0xE2, 0x98, 0x83]) ⟨100, 103, 0, 0, 0⟩
     3 0xE2 [0x98, 0x83] rfl (by decide) (by decide) rfl (by decide)
     ⟨rfl, rfl, rfl, trivial⟩ (by decide)⟩

/-- C7 as stated fails: the surrogate U+D800 has canonical length 3, its
4-byte form is `F0 8D A0 80`, and `decode` reports that form as got_surrogate,
not as got_overlong. -/
theorem overlong_claim_counterexample :
    utf8_code_length 0xD800 < 4 ∧ utf8_form 4 0xD800 = [0xF0, 0x8D, 0xA0, 0x80] ∧
    UTF8Decoder.decode (image 100 (utf8_form 4 0xD800)) ⟨100, 104, 0, 0, 0⟩
      = some (Status.got_surrogate, ⟨104, 104, 0xD800, 0, 5⟩) ∧
    Status.got_surrogate ≠ Status.got_overlong := by
  decide

/-- C7, amended (overlong detection): for every ordinary scalar `S` and every
`L` in 2..6 above `utf8_code_length S`, an idle decoder whose source starts
with the L-byte form of `S` returns got_overlong with the accumulator equal to
`S`, having consumed the `L` bytes. -/
theorem overlong_detection (mem : Mem) (d : UTF8Decoder) (S L : Nat)
    (hord : codepoint_semantic S = CodepointSemantic.ordinary) (hL : 2 ≤ L ∧ L ≤ 6)
    (hlong : utf8_code_length S < L) (hidle : d.len = 0)
    (hh : holds mem d.src (utf8_form L S)) (hend : d.src + L ≤ d.end_) :
    ∃ d2, d.decode mem = some (Status.got_overlong, d2) ∧ d2.cp = S ∧
      d2.src = d.src + L ∧ d2.len = 0 := by
  have hle := ordinary_le S hord
  have hS : S < 2 ^ (5 * L + 1) := by
    obtain ⟨h2, h6⟩ := hL
    have hc := code_length_cases S hle
    simp only [Nat.reducePow] at hc
    interval_cases L <;> simp only [Nat.reducePow, Nat.reduceMul, Nat.reduceAdd] <;> omega
  obtain ⟨lead, conts, hform, hlf, hlen, hcf, _, hasm⟩ := utf8_form_facts L S hL hS
  rw [hform] at hh
  have hdec := decode_sequence mem d L lead conts hidle hL hlf hlen hcf hh hend
  have hst : expected_status L S = Status.got_overlong := by
    simp [expected_status, hord, hlong]
  rw [hasm, hst] at hdec
  exact ⟨{ src := d.src + L, end_ := d.end_, cp := S, len := 0, pos := L + 1 },
    hdec, rfl, rfl, rfl⟩

/-- Witness of `overlong_detection`: `C0 AF` is the 2-byte form of `/` (0x2F). -/
theorem overlong_detection_witness :
    utf8_form 2 0x2F = [0xC0, 0xAF] ∧
    ∃ d2, UTF8Decoder.decode (image 100 [0xC0, 0xAF]) ⟨100, 102, 0, 0, 0⟩
        = some (Status.got_overlong, d2) ∧ d2.cp = 0x2F ∧ d2.src = 100 + 2 ∧ d2.len = 0 :=
  ⟨by decide,
   overlong_detection (image 100 [0xC0, 0xAF]) ⟨100, 102, 0, 0, 0⟩ 0x2F 2
     (by decide) (by decide) (by decide) rfl ⟨rfl, rfl, trivial⟩ (by decide)⟩

/-- C8 (resynchronisation): when the source of an idle decoder starts with a
lead byte of the L-byte form followed by fewer than `L - 1` continuation bytes
and then a byte `X` that is not a continuation byte, `decode` returns
invalid_sequence with accumulator 0xFFFD, leaves the cursor on `X` and the
decoder idle, and the next `decode` returns a result and behaves exactly as the
`decode` of any idle decoder whose source starts at `X`. -/
theorem resynchronisation (mem : Mem) (d : UTF8Decoder) (L lead : Nat) (conts : List Nat)
    (hidle : d.len = 0) (hL : 2 ≤ L ∧ L ≤ 6) (hlead : lead_form L lead)
    (hn : conts.length + 1 < L) (hc : ∀ c ∈ conts, cont_form c)
    (hh : holds mem d.src (lead :: conts)) (hend : d.src + 1 + conts.length < d.end_)
    (hx : ¬ cont_form (mem (d.src + 1 + conts.length) % 256)) :
    ∃ d2, d.decode mem = some (Status.invalid_sequence, d2) ∧ d2.cp = 0xFFFD ∧
      d2.src = d.src + 1 + conts.length ∧ d2.end_ = d.end_ ∧ d2.len = 0 ∧
      (∃ r, d2.decode mem = some r) ∧
      ∀ f : UTF8Decoder, f.len = 0 → f.src = d2.src → f.end_ = d2.end_ →
        (d2.decode mem).map observe = (f.decode mem).map observe := by
  refine ⟨_, decode_truncated mem d L lead conts hidle hL hlead hn hc hh hend hx,
    rfl, rfl, rfl, rfl, ?_, ?_⟩
  · exact decode_total mem _ (by simp; omega)
  · intro f hf hs he
    exact decode_idle_indep mem _ f rfl hf hs.symm he.symm (by simp; omega)

/-- Witness of `resynchronisation`: `E2 41 42` yields invalid_sequence, then
got_codepoint 0x41, then got_codepoint 0x42. -/
theorem resynchronisation_witness :
    run (image 100 [0xE2, 0x41, 0x42]) 4 ⟨100, 103, 0, 0, 0⟩ =
      some ([(Status.invalid_sequence, 0xFFFD), (Status.got_codepoint, 0x41),
        (Status.got_codepoint, 0x42)], Status.idle, ⟨103, 103, 0x42, 0, 2⟩) ∧
    ∃ d2, UTF8Decoder.decode (image 100 [0xE2, 0x41, 0x42]) ⟨100, 103, 0, 0, 0⟩
        = some (Status.invalid_sequence, d2) ∧ d2.cp = 0xFFFD ∧
      d2.src = 100 + 1 + ([] : List Nat).length ∧ d2.end_ = 103 ∧ d2.len = 0 ∧
      (∃ r, d2.decode (image 100 [0xE2, 0x41, 0x42]) = some r) ∧
      ∀ f : UTF8Decoder, f.len = 0 → f.src = d2.src → f.end_ = d2.end_ →
        (d2.decode (image 100 [0xE2, 0x41, 0x42])).map observe
          = (f.decode (image 100 [0xE2, 0x41, 0x42])).map observe :=
  ⟨by decide,
   resynchronisation (image 100 [0xE2, 0x41, 0x42]) ⟨100, 103, 0, 0, 0⟩ 3 0xE2 []
     rfl (by decide) (by decide) (by decide) (by decide) ⟨rfl, trivial⟩ (by decide)
     (by decide)⟩

/-- C9 as stated fails: on an empty source an idle decoder returns idle, a
status other than pending, without moving the cursor; and the decoder left by
the pending return on `E2 98` returns got_overlong on the piece `83` without
moving the cursor. -/
theorem forward_progress_counterexample :
    UTF8Decoder.decode (image 100 []) ⟨100, 100, 0, 0, 0⟩
      = some (Status.idle, ⟨100, 100, 0, 0, 0⟩) ∧
    Status.idle ≠ Status.pending ∧ Status.idle ≠ Status.invalid_sequence ∧
    UTF8Decoder.decode (image 100 [0xE2, 0x98, 0x83]) ⟨100, 102, 0, 0, 0⟩
      = some (Status.pending, ⟨102, 102, 0x98, 3, 3⟩) ∧
    UTF8Decoder.decode (image 100 [0xE2, 0x98, 0x83]) ⟨102, 103, 0x98, 3, 3⟩
      = some (Status.got_overlong, ⟨102, 103, 0x98, 0, 4⟩) := by
  decide

/-- C9, amended (forward progress): for every decoder that is idle or has
`pos ≠ len` on entry, every `decode` call that returns a status other than
pending and idle never moves the cursor backwards and advances it by at least
one byte, except when it returns invalid_sequence with the cursor left on a
byte of the source that is not a continuation byte. -/
theorem decode_forward_progress (mem : Mem) (d : UTF8Decoder) (st : Status)
    (d2 : UTF8Decoder) (hdec : d.decode mem = some (st, d2))
    (hstate : d.len = 0 ∨ d.pos ≠ d.len) (hp : st ≠ Status.pending)
    (hi : st ≠ Status.idle) :
    d.src ≤ d2.src ∧
    (d.src < d2.src ∨
      (st = Status.invalid_sequence ∧ d2.src ≠ d2.end_ ∧ ¬ cont_form (mem d2.src % 256))) :=
  ⟨(decode_progress_core mem d st d2 hdec).1,
   (decode_progress_core mem d st d2 hdec).2.2 hstate hp hi⟩

/-- Witness of `decode_forward_progress`: decoding `E2 98 83` from an idle
decoder moves the cursor from 100 to 103. -/
theorem decode_forward_progress_witness :
    UTF8Decoder.decode (image 100 [0xE2, 0x98, 0x83]) ⟨100, 103, 0, 0, 0⟩
      = some (Status.got_codepoint, ⟨103, 103, 0x2603, 0, 4⟩) ∧
    (100 ≤ 103 ∧
      (100 < 103 ∨
        (Status.got_codepoint = Status.invalid_sequence ∧ (103 : Nat) ≠ 103 ∧
          ¬ cont_form (image 100 [0xE2, 0x98, 0x83] 103 % 256)))) :=
  ⟨by decide,
   decode_forward_progress (image 100 [0xE2, 0x98, 0x83]) ⟨100, 103, 0, 0, 0⟩
     Status.got_codepoint ⟨103, 103, 0x2603, 0, 4⟩ (by decide) (Or.inl rfl) (by decide)
     (by decide)⟩

/-- C10 as stated fails: `F8 80 80 80 80` is a 5-byte lead followed by four
continuation bytes; `decode` assembles the scalar 0, which is below 0x200000,
and returns got_overlong, not bad_codepoint. -/
theorem long_form_counterexample :
    lead_form 5 0xF8 ∧ (∀ c ∈ [0x80, 0x80, 0x80, 0x80], cont_form c) ∧
    UTF8Decoder.decode (image 100 [0xF8, 0x80, 0x80, 0x80, 0x80]) ⟨100, 105, 0, 0, 0⟩
      = some (Status.got_overlong, ⟨105, 105, 0, 0, 6⟩) ∧
    Status.got_overlong ≠ Status.bad_codepoint := by
  decide

/-- C10, amended (5- and 6-byte forms): when the source of an idle decoder
starts with a 5-byte lead followed by 4 continuation bytes, or a 6-byte lead
followed by 5 continuation bytes, `decode` consumes the whole form, assembles
the scalar `S` of its payload bits, never returns invalid_sequence or pending,
and returns bad_codepoint exactly when `S > 0x10FFFF`, in particular whenever
`S ≥ 0x200000`. -/
theorem long_forms_classified (mem : Mem) (d : UTF8Decoder) (L lead : Nat)
    (conts : List Nat) (hidle : d.len = 0) (hL : L = 5 ∨ L = 6) (hlead : lead_form L lead)
    (hn : conts.length + 1 = L) (hc : ∀ c ∈ conts, cont_form c)
    (hh : holds mem d.src (lead :: conts)) (hend : d.src + L ≤ d.end_) :
    ∃ st d2, d.decode mem = some (st, d2) ∧ d2.cp = assemble L lead conts ∧
      d2.src = d.src + L ∧ d2.len = 0 ∧
      st ≠ Status.invalid_sequence ∧ st ≠ Status.pending ∧
      (st = Status.bad_codepoint ↔ 0x10FFFF < assemble L lead conts) ∧
      (0x200000 ≤ assemble L lead conts → st = Status.bad_codepoint) := by
  have hL2 : 2 ≤ L ∧ L ≤ 6 := by omega
  obtain ⟨h1, h2, h3⟩ := expected_status_facts L (assemble L lead conts)
  exact ⟨expected_status L (assemble L lead conts),
    { src := d.src + L, end_ := d.end_, cp := assemble L lead conts, len := 0, pos := L + 1 },
    decode_sequence mem d L lead conts hidle hL2 hlead hn hc hh hend,
    rfl, rfl, rfl, h1, h2, h3, fun h => h3.2 (by omega)⟩

/-- Witness of `long_forms_classified`: `F8 88 80 80 80` is the 5-byte form of
0x200000 and is reported as bad_codepoint. -/
theorem long_forms_classified_witness :
    assemble 5 0xF8 [0x88, 0x80, 0x80, 0x80] = 0x200000 ∧
    ∃ st d2, UTF8Decoder.decode (image 100 [0xF8, 0x88, 0x80, 0x80, 0x80]) ⟨100, 105, 0, 0, 0⟩
        = some (st, d2) ∧ d2.cp = assemble 5 0xF8 [0x88, 0x80, 0x80, 0x80] ∧
      d2.src = 100 + 5 ∧ d2.len = 0 ∧
      st ≠ Status.invalid_sequence ∧ st ≠ Status.pending ∧
      (st = Status.bad_codepoint ↔ 0x10FFFF < assemble 5 0xF8 [0x88, 0x80, 0x80, 0x80]) ∧
      (0x200000 ≤ assemble 5 0xF8 [0x88, 0x80, 0x80, 0x80] → st = Status.bad_codepoint) :=
  ⟨by decide,
   long_forms_classified (image 100 [0xF8, 0x88, 0x80, 0x80, 0x80]) ⟨100, 105, 0, 0, 0⟩
     5 0xF8 [0x88, 0x80, 0x80, 0x80] rfl (Or.inl rfl) (by decide) rfl (by decide)
     ⟨rfl, rfl, rfl, rfl, rfl, trivial⟩ (by decide)⟩

/-- C11 (surrogate detection): for every scalar `S` in `0xD800..0xDFFF`, an
idle decoder whose source starts with the 3-byte form
`0xE0 | (S >> 12), 0x80 | ((S >> 6) & 0x3F), 0x80 | (S & 0x3F)` returns
got_surrogate with the accumulator equal to `S`, having consumed the three
bytes. -/
theorem surrogate_detection (mem : Mem) (d : UTF8Decoder) (S : Nat)
    (hS : 0xD800 ≤ S ∧ S ≤ 0xDFFF) (hidle : d.len = 0)
    (hh : holds mem d.src
      [0xE0 ||| (S >>> 12), 0x80 ||| ((S >>> 6) &&& 0x3F), 0x80 ||| (S &&& 0x3F)])
    (hend : d.src + 3 ≤ d.end_) :
    ∃ d2, d.decode mem = some (Status.got_surrogate, d2) ∧ d2.cp = S ∧
      d2.src = d.src + 3 ∧ d2.len = 0 := by
  rw [surrogate_form S hS] at hh
  have hdec := decode_utf8_form mem d 3 S (by decide)
    (by simp only [Nat.reducePow, Nat.reduceMul, Nat.reduceAdd]; omega) hidle hh hend
  have hst : expected_status 3 S = Status.got_surrogate := by
    rcases surrogate_semantic S hS with h | h <;> simp [expected_status, h]
  rw [hst] at hdec
  exact ⟨_, hdec, rfl, rfl, rfl⟩

/-- Witness of `surrogate_detection`: `ED A0 80` carries U+D800. -/
theorem surrogate_detection_witness :
    [0xE0 ||| (0xD800 >>> 12), 0x80 ||| ((0xD800 >>> 6) &&& 0x3F), 0x80 ||| (0xD800 &&& 0x3F)]
      = [0xED, 0xA0, 0x80] ∧
    ∃ d2, UTF8Decoder.decode (image 100 [0xED, 0xA0, 0x80]) ⟨100, 103, 0, 0, 0⟩
        = some (Status.got_surrogate, d2) ∧ d2.cp = 0xD800 ∧ d2.src = 100 + 3 ∧
      d2.len = 0 :=
  ⟨by decide,
   surrogate_detection (image 100 [0xED, 0xA0, 0x80]) ⟨100, 103, 0, 0, 0⟩ 0xD800
     (by decide) rfl ⟨rfl, rfl, rfl, trivial⟩ (by decide)⟩

/-- C12 (noncharacter detection): for every noncharacter scalar `S` up to
`0x10FFFF` (`U+FDD0..U+FDEF`, or low 16 bits equal to `0xFFFE` or `0xFFFF`), an
idle decoder whose source starts with the minimal form of `S`
(`utf8_code_length S` bytes) returns got_noncharacter with the accumulator
equal to `S`, having consumed these bytes. -/
theorem noncharacter_detection (mem : Mem) (d : UTF8Decoder) (S : Nat)
    (hle : S ≤ 0x10FFFF)
    (hS : (0xFDD0 ≤ S ∧ S ≤ 0xFDEF) ∨ S &&& 0xFFFF = 0xFFFE ∨ S &&& 0xFFFF = 0xFFFF)
    (hidle : d.len = 0) (hh : holds mem d.src (utf8_form (utf8_code_length S) S))
    (hend : d.src + utf8_code_length S ≤ d.end_) :
    ∃ d2, d.decode mem = some (Status.got_noncharacter, d2) ∧ d2.cp = S ∧
      d2.src = d.src + utf8_code_length S ∧ d2.len = 0 := by
  obtain ⟨hsem, h800⟩ := noncharacter_semantic S hle hS
  have hL : 2 ≤ utf8_code_length S ∧ utf8_code_length S ≤ 6 := by
    rcases code_length_cases S hle with h | h | h | h <;> omega
  have hdec := decode_utf8_form mem d _ S hL
    (pow_bound_of_code_length S _ hL hle (Nat.le_refl _)) hidle hh hend
  have hst : expected_status (utf8_code_length S) S = Status.got_noncharacter := by
    simp [expected_status, hsem]
  rw [hst] at hdec
  exact ⟨_, hdec, rfl, rfl, rfl⟩

/-- Witness of `noncharacter_detection`: `EF BF BE` carries U+FFFE and
`F4 8F BF BF` carries U+10FFFF. -/
theorem noncharacter_detection_witness :
    utf8_form (utf8_code_length 0xFFFE) 0xFFFE = [0xEF, 0xBF, 0xBE] ∧
    utf8_form (utf8_code_length 0x10FFFF) 0x10FFFF = [0xF4, 0x8F, 0xBF, 0xBF] ∧
    (∃ d2, UTF8Decoder.decode (image 100 [0xEF, 0xBF, 0xBE]) ⟨100, 103, 0, 0, 0⟩
        = some (Status.got_noncharacter, d2) ∧ d2.cp = 0xFFFE ∧
      d2.src = 100 + utf8_code_length 0xFFFE ∧ d2.len = 0) ∧
    (∃ d2, UTF8Decoder.decode (image 100 [0xF4, 0x8F, 0xBF, 0xBF]) ⟨100, 104, 0, 0, 0⟩
        = some (Status.got_noncharacter, d2) ∧ d2.cp = 0x10FFFF ∧
      d2.src = 100 + utf8_code_length 0x10FFFF ∧ d2.len = 0) :=
  ⟨by decide, by decide,
   noncharacter_detection (image 100 [0xEF, 0xBF, 0xBE]) ⟨100, 103, 0, 0, 0⟩ 0xFFFE
     (by decide) (by decide) rfl ⟨rfl, rfl, rfl, trivial⟩ (by decide),
   noncharacter_detection (image 100 [0xF4, 0x8F, 0xBF, 0xBF]) ⟨100, 104, 0, 0, 0⟩ 0x10FFFF
     (by decide) (by decide) rfl ⟨rfl, rfl, rfl, rfl, trivial⟩ (by decide)⟩

/-- C13 (non-lead first byte): for every idle decoder whose source is not
empty, if the next byte is in `0x80..0xBF` or is `0xFE` or `0xFF`, `decode`
returns invalid_sequence, sets the accumulator to 0xFFFD, leaves the decoder
idle and consumes exactly that byte; if the next byte is in `0xC0..0xFD`, it is
the lead byte of an L-byte form for some `L` in 2..6 and `decode` consumes it
and goes on as the continuation loop with `len = L`, `pos = 1` and the payload
bits of the lead in the accumulator. -/
theorem non_lead_first_byte (mem : Mem) (d : UTF8Decoder) (hidle : d.len = 0)
    (hne : d.src ≠ d.end_) :
    ((0x80 ≤ mem d.src % 256 ∧ mem d.src % 256 ≤ 0xBF) ∨ mem d.src % 256 = 0xFE ∨
        mem d.src % 256 = 0xFF →
      ∃ d2, d.decode mem = some (Status.invalid_sequence, d2) ∧ d2.cp = 0xFFFD ∧
        d2.len = 0 ∧ d2.src = d.src + 1 ∧ d2.end_ = d.end_) ∧
    (0xC0 ≤ mem d.src % 256 ∧ mem d.src % 256 ≤ 0xFD →
      ∃ L, 2 ≤ L ∧ L ≤ 6 ∧ lead_form L (mem d.src % 256) ∧
        d.decode mem = decode_loop mem (d.end_ - (d.src + 1) + 1)
          { src := d.src + 1, end_ := d.end_, cp := (mem d.src % 256) % 2 ^ (7 - L),
            len := L, pos := 1 }) := by
  constructor
  · intro hb
    exact ⟨_, decode_non_lead mem d hidle hne hb, rfl, rfl, rfl, rfl⟩
  · intro hb
    obtain ⟨hlf, h2, h6⟩ := lead_length_facts _ (Nat.mod_lt _ (by decide)) hb.1 hb.2
    exact ⟨_, h2, h6, hlf, decode_lead mem d _ hidle hne ⟨h2, h6⟩ hlf⟩

/-- Witness of `non_lead_first_byte`: the single byte `FF` returns
invalid_sequence with accumulator 0xFFFD. -/
theorem non_lead_first_byte_witness :
    UTF8Decoder.decode (image 100 [0xFF]) ⟨100, 101, 0, 0, 0⟩
      = some (Status.invalid_sequence, ⟨101, 101, 0xFFFD, 0, 0⟩) ∧
    ∃ d2, UTF8Decoder.decode (image 100 [0xFF]) ⟨100, 101, 0, 0, 0⟩
        = some (Status.invalid_sequence, d2) ∧ d2.cp = 0xFFFD ∧
      d2.len = 0 ∧ d2.src = 100 + 1 ∧ d2.end_ = 101 :=
  ⟨by decide,
   (non_lead_first_byte (image 100 [0xFF]) ⟨100, 101, 0, 0, 0⟩ rfl (by decide)).1
     (Or.inr (Or.inr rfl))⟩

/-- C14 (set_source): for every decoder and every pair `(begin, end)`,
`set_source` fails with the invalid-range error if and only if `begin` is null
or `end < begin`; on failure the decoder is left exactly as it was, and on
success the cursor and the end are replaced by `begin` and `end` while the
accumulator, the target length and the position keep their values. -/
theorem set_source_contract (d : UTF8Decoder) (b e : Nat) :
    (d.set_source b e = Except.error SourceError.invalid_range ↔ (b = 0 ∨ e < b)) ∧
    ((d.set_source_exec b e).1 = some SourceError.invalid_range ↔ (b = 0 ∨ e < b)) ∧
    ((b = 0 ∨ e < b) → (d.set_source_exec b e).2 = d) ∧
    (¬ (b = 0 ∨ e < b) →
      d.set_source b e = Except.ok (d.set_source_exec b e).2 ∧
      (d.set_source_exec b e).1 = none ∧
      (d.set_source_exec b e).2.src = b ∧ (d.set_source_exec b e).2.end_ = e ∧
      (d.set_source_exec b e).2.cp = d.cp ∧ (d.set_source_exec b e).2.len = d.len ∧
      (d.set_source_exec b e).2.pos = d.pos) := by
  by_cases h : b = 0 ∨ e < b
  · simp [UTF8Decoder.set_source, UTF8Decoder.set_source_exec, h]
  · simp [UTF8Decoder.set_source, UTF8Decoder.set_source_exec, h]

/-- C15 (the encoder stays within its headroom): for every ordinary scalar `S`
and every destination with `limit - dest ≥ 4`, `utf8_encode` returns
`dest + utf8_code_length S` with `1 ≤ utf8_code_length S ≤ 4`, the returned
cursor does not exceed `limit`, and every byte outside `[dest, returned)` is
unchanged. -/
theorem utf8_encode_within_headroom (mem : Mem) (S dest limit : Nat)
    (hord : codepoint_semantic S = CodepointSemantic.ordinary)
    (hroom : 4 ≤ (limit : Int) - (dest : Int)) :
    (utf8_encode mem S dest limit).1 = dest + utf8_code_length S ∧
    1 ≤ utf8_code_length S ∧ utf8_code_length S ≤ 4 ∧
    (utf8_encode mem S dest limit).1 ≤ limit ∧
    ∀ x, x < dest ∨ (utf8_encode mem S dest limit).1 ≤ x →
      (utf8_encode mem S dest limit).2 x = mem x := by
  have hle := ordinary_le S hord
  have hN : 1 ≤ utf8_code_length S ∧ utf8_code_length S ≤ 4 := by
    rcases code_length_cases S hle with h | h | h | h <;> omega
  rw [utf8_encode_ok mem S dest limit hord hroom]
  refine ⟨rfl, hN.1, hN.2, ?_, ?_⟩
  · dsimp only
    omega
  · intro x hx
    exact poke_list_frame _ _ _ _ (by rw [utf8_bytes_length S hle]; exact hx)

/-- Witness of `utf8_encode_within_headroom`: U+1F600 takes the four bytes
`[100, 104)` of a buffer that ends at 104. -/
theorem utf8_encode_within_headroom_witness :
    (utf8_encode (image 100 []) 0x1F600 100 104).1 = 100 + utf8_code_length 0x1F600 ∧
    1 ≤ utf8_code_length 0x1F600 ∧ utf8_code_length 0x1F600 ≤ 4 ∧
    (utf8_encode (image 100 []) 0x1F600 100 104).1 ≤ 104 ∧
    ∀ x, x < 100 ∨ (utf8_encode (image 100 []) 0x1F600 100 104).1 ≤ x →
      (utf8_encode (image 100 []) 0x1F600 100 104).2 x = image 100 [] x :=
  utf8_encode_within_headroom (image 100 []) 0x1F600 100 104 (by decide) (by decide)

/-- C16 (pending preserves state) fails on the code: after the lead byte `E2`
the decoder is collecting with `len = 3`, `pos = 2` and an empty source; one
more `decode` on the empty source returns pending but moves `pos` to 3.  Given
the remaining bytes `98 83`, the decoder that made this extra call returns
got_overlong with accumulator 2 and consumes nothing, while the decoder that
did not make it consumes `98` and returns got_overlong with accumulator 0x98. -/
theorem pending_advances_position :
    UTF8Decoder.decode (image 100 [0xE2, 0x98, 0x83]) ⟨100, 101, 0, 0, 0⟩
      = some (Status.pending, ⟨101, 101, 2, 3, 2⟩) ∧
    UTF8Decoder.decode (image 100 [0xE2, 0x98, 0x83]) ⟨101, 101, 2, 3, 2⟩
      = some (Status.pending, ⟨101, 101, 2, 3, 3⟩) ∧
    UTF8Decoder.decode (image 100 [0xE2, 0x98, 0x83]) ⟨101, 103, 2, 3, 3⟩
      = some (Status.got_overlong, ⟨101, 103, 2, 0, 4⟩) ∧
    UTF8Decoder.decode (image 100 [0xE2, 0x98, 0x83]) ⟨101, 103, 2, 3, 2⟩
      = some (Status.got_overlong, ⟨102, 103, 0x98, 0, 4⟩) := by
  decide

/-- C17 (state invariant): the predicate `len = 0, or 2 ≤ len ≤ 6 and
1 ≤ pos ≤ len` holds for every decoder with `len = 0` (a freshly constructed
one among them), is preserved by `set_source` on both of its exits and by every
`decode` call whatever the memory holds and whatever status is returned, and
after `decode` the length is not 0 exactly when pending was returned; `decode`
does return whenever the cursor is not beyond the end of the source. -/
theorem state_invariant :
    (∀ d : UTF8Decoder, d.len = 0 → state_inv d) ∧
    (∀ (d : UTF8Decoder) (b e : Nat), state_inv d → state_inv (d.set_source_exec b e).2) ∧
    (∀ (d d2 : UTF8Decoder) (b e : Nat), state_inv d → d.set_source b e = Except.ok d2 →
      state_inv d2) ∧
    (∀ (mem : Mem) (d : UTF8Decoder) (st : Status) (d2 : UTF8Decoder),
      state_inv d → d.decode mem = some (st, d2) →
      state_inv d2 ∧ (d2.len ≠ 0 ↔ st = Status.pending)) ∧
    (∀ (mem : Mem) (d : UTF8Decoder), d.src ≤ d.end_ → ∃ r, d.decode mem = some r) := by
  refine ⟨fun d h => Or.inl h, ?_, ?_, fun mem d st d2 hinv hdec => decode_inv mem d st d2 hinv hdec,
    fun mem d h => decode_total mem d h⟩
  · intro d b e hinv
    unfold UTF8Decoder.set_source_exec
    split_ifs
    · exact hinv
    · exact hinv
  · intro d d2 b e hinv h
    unfold UTF8Decoder.set_source at h
    split_ifs at h
    simp only [Except.ok.injEq] at h
    subst h
    exact hinv

/-- C18 (encoder byte layout): for every ordinary scalar `S` with
`N = utf8_code_length S` and headroom of at least 4, `utf8_encode` stores, when
`N = 1`, the single byte `S & 0x7F`, and when `N ≥ 2`, the lead byte
`(0xFE << (7 - N)) | (S >> 6 (N - 1))` cut to eight bits followed by the
`N - 1` bytes `0x80 | ((S >> 6 k) & 0x3F)` for `k = N - 2` down to 0; the lead
byte has `N` leading one bits and then a zero bit, and every later byte has the
form 10xxxxxx. -/
theorem utf8_encode_layout (mem : Mem) (S dest limit : Nat)
    (hord : codepoint_semantic S = CodepointSemantic.ordinary)
    (hroom : 4 ≤ (limit : Int) - (dest : Int)) :
    (utf8_code_length S = 1 → (utf8_encode mem S dest limit).2 dest = S &&& 0x7F) ∧
    (2 ≤ utf8_code_length S →
      (utf8_encode mem S dest limit).2 dest =
        ((0xFE <<< (7 - utf8_code_length S)) ||| (S >>> (6 * (utf8_code_length S - 1)))) % 256 ∧
      (∀ i, i < utf8_code_length S - 1 →
        (utf8_encode mem S dest limit).2 (dest + 1 + i) =
          0x80 ||| ((S >>> (6 * (utf8_code_length S - 2 - i))) &&& 0x3F)) ∧
      lead_form (utf8_code_length S) ((utf8_encode mem S dest limit).2 dest) ∧
      ∀ i, i < utf8_code_length S - 1 →
        cont_form ((utf8_encode mem S dest limit).2 (dest + 1 + i))) := by
  have hle := ordinary_le S hord
  have hcases := code_length_cases S hle
  rw [utf8_encode_ok mem S dest limit hord hroom]
  dsimp only
  constructor
  · intro hN
    have hS : S < 128 := by rcases hcases with h | h | h | h <;> omega
    have h0 := poke_list_get (utf8_bytes S) dest mem 0 (S &&& 0x7f) (by simp [utf8_bytes, hN])
    rw [Nat.add_zero] at h0
    rw [h0, (low7_facts S hS).1]
    omega
  · intro hN
    have hN1 : utf8_code_length S ≠ 1 := by omega
    have hL : 2 ≤ utf8_code_length S ∧ utf8_code_length S ≤ 6 := by
      rcases hcases with h | h | h | h <;> omega
    have hshift : (0xfe <<< (7 - utf8_code_length S)) % 2 ^ 32
        = 0xFE <<< (7 - utf8_code_length S) := by
      rcases hcases with h | h | h | h
      · omega
      all_goals (rw [h.1]; decide)
    obtain ⟨lead, conts, hform, hlf, hlen, hcf, hlt, _⟩ := utf8_form_facts _ S hL
      (pow_bound_of_code_length S _ hL hle (Nat.le_refl _))
    have hbytes : utf8_bytes S = utf8_form (utf8_code_length S) S := by
      simp [utf8_bytes, hN1]
    have hlead : poke_list mem dest (utf8_bytes S) dest
        = ((0xFE <<< (7 - utf8_code_length S)) ||| (S >>> (6 * (utf8_code_length S - 1)))) % 256 := by
      have h0 := poke_list_get (utf8_bytes S) dest mem 0
        ((((0xfe <<< (7 - utf8_code_length S)) % 2 ^ 32) |||
          (S >>> (6 * (utf8_code_length S - 1)))) % 256)
        (by rw [hbytes]; simp only [utf8_form, List.getElem?_cons_zero])
      rw [Nat.add_zero] at h0
      rw [h0, Nat.mod_mod, hshift]
    have hcont : ∀ i, i < utf8_code_length S - 1 →
        poke_list mem dest (utf8_bytes S) (dest + 1 + i)
          = 0x80 ||| ((S >>> (6 * (utf8_code_length S - 2 - i))) &&& 0x3F) := by
      intro i hi
      have hg := cont_bytes_get S (utf8_code_length S - 1) i hi
      have h1 := poke_list_get (utf8_bytes S) dest mem (i + 1) _
        (by rw [hbytes]; simp only [utf8_form, List.getElem?_cons_succ]; exact hg)
      have e1 : dest + (i + 1) = dest + 1 + i := by omega
      have e2 : utf8_code_length S - 1 - 1 - i = utf8_code_length S - 2 - i := by omega
      rw [e1, e2] at h1
      rw [h1]
      have hy : (S >>> (6 * (utf8_code_length S - 2 - i))) &&& 0x3f < 64 := by
        rw [and_63]; exact Nat.mod_lt _ (by decide)
      have := (or_80_facts _ hy).2.2
      omega
    refine ⟨hlead, hcont, ?_, ?_⟩
    · rw [hlead, ← hshift]
      have : lead = (((0xfe <<< (7 - utf8_code_length S)) % 2 ^ 32) |||
          (S >>> (6 * (utf8_code_length S - 1)))) % 256 := by
        simp only [utf8_form, List.cons.injEq] at hform
        exact hform.1.symm
      rw [← this]; exact hlf
    · intro i hi
      rw [hcont i hi]
      have hy : (S >>> (6 * (utf8_code_length S - 2 - i))) &&& 0x3f < 64 := by
        rw [and_63]; exact Nat.mod_lt _ (by decide)
      exact (or_80_facts _ hy).1

/-- Witness of `utf8_encode_layout`: U+2603 is stored as `E2 98 83`. -/
theorem utf8_encode_layout_witness :
    (utf8_encode (image 100 []) 0x2603 100 104).2 100 = 0xE2 ∧
    (utf8_encode (image 100 []) 0x2603 100 104).2 101 = 0x98 ∧
    (utf8_encode (image 100 []) 0x2603 100 104).2 102 = 0x83 ∧
    (2 ≤ utf8_code_length 0x2603 →
      (utf8_encode (image 100 []) 0x2603 100 104).2 100 =
        ((0xFE <<< (7 - utf8_code_length 0x2603)) |||
          (0x2603 >>> (6 * (utf8_code_length 0x2603 - 1)))) % 256 ∧
      (∀ i, i < utf8_code_length 0x2603 - 1 →
        (utf8_encode (image 100 []) 0x2603 100 104).2 (100 + 1 + i) =
          0x80 ||| ((0x2603 >>> (6 * (utf8_code_length 0x2603 - 2 - i))) &&& 0x3F)) ∧
      lead_form (utf8_code_length 0x2603) ((utf8_encode (image 100 []) 0x2603 100 104).2 100) ∧
      ∀ i, i < utf8_code_length 0x2603 - 1 →
        cont_form ((utf8_encode (image 100 []) 0x2603 100 104).2 (100 + 1 + i))) :=
  ⟨by decide, by decide, by decide,
   (utf8_encode_layout (image 100 []) 0x2603 100 104 (by decide) (by decide)).2⟩

/-- C19 (draining terminates): every `decode` call on an idle decoder whose
source is not empty consumes at least one byte; hence, for a source of `n`
bytes, calling `decode` repeatedly on an idle decoder reaches idle or pending
within `n + 1` calls, after at most `n` other statuses, with the cursor still
inside the source; and no `decode` call ever moves the cursor backwards. -/
theorem draining_terminates (mem : Mem) (d : UTF8Decoder) (hidle : d.len = 0)
    (hle : d.src ≤ d.end_) :
    (d.src ≠ d.end_ → ∃ st d2, d.decode mem = some (st, d2) ∧ d.src + 1 ≤ d2.src) ∧
    (∃ evs st dfin, run mem (d.end_ - d.src + 1) d = some (evs, st, dfin) ∧
      evs.length ≤ d.end_ - d.src ∧ (st = Status.idle ∨ st = Status.pending) ∧
      d.src ≤ dfin.src ∧ dfin.src ≤ d.end_) ∧
    (∀ (d1 : UTF8Decoder) (st : Status) (d2 : UTF8Decoder),
      d1.decode mem = some (st, d2) → d1.src ≤ d2.src) := by
  refine ⟨?_, run_drains mem _ d hidle hle (by omega), ?_⟩
  · intro hne
    obtain ⟨⟨st, d2⟩, hdec⟩ := decode_total mem d hle
    exact ⟨st, d2, hdec, (decode_idle_advance mem d st d2 hidle hne hdec).1⟩
  · intro d1 st d2 hdec
    exact (decode_progress_core mem d1 st d2 hdec).1

/-- Witness of `draining_terminates`: the three bytes `E2 41 42` are drained in
four calls, with three statuses before the closing idle. -/
theorem draining_terminates_witness :
    run (image 100 [0xE2, 0x41, 0x42]) (103 - 100 + 1) ⟨100, 103, 0, 0, 0⟩ =
      some ([(Status.invalid_sequence, 0xFFFD), (Status.got_codepoint, 0x41),
        (Status.got_codepoint, 0x42)], Status.idle, ⟨103, 103, 0x42, 0, 2⟩) ∧
    ∃ evs st dfin, run (image 100 [0xE2, 0x41, 0x42]) (103 - 100 + 1) ⟨100, 103, 0, 0, 0⟩
        = some (evs, st, dfin) ∧
      evs.length ≤ 103 - 100 ∧ (st = Status.idle ∨ st = Status.pending) ∧
      100 ≤ dfin.src ∧ dfin.src ≤ 103 :=
  ⟨by decide,
   (draining_terminates (image 100 [0xE2, 0x41, 0x42]) ⟨100, 103, 0, 0, 0⟩ rfl
     (by decide)).2.1⟩

/-- C20 (only canonical encodings are accepted): whenever `decode` on an idle
decoder returns got_codepoint with accumulator `S`, the scalar `S` is ordinary,
the call has consumed exactly `utf8_code_length S ≤ 4` bytes, and `utf8_encode`
of `S` into any buffer with room stores exactly the consumed bytes. -/
theorem got_codepoint_is_canonical (mem : Mem) (d d2 : UTF8Decoder) (hidle : d.len = 0)
    (hdec : d.decode mem = some (Status.got_codepoint, d2)) :
    codepoint_semantic d2.cp = CodepointSemantic.ordinary ∧
    d2.src = d.src + utf8_code_length d2.cp ∧ utf8_code_length d2.cp ≤ 4 ∧
    ∀ (mem2 : Mem) (dest limit : Nat), 4 ≤ (limit : Int) - (dest : Int) →
      (utf8_encode mem2 d2.cp dest limit).1 = dest + utf8_code_length d2.cp ∧
      ∀ i, i < utf8_code_length d2.cp →
        (utf8_encode mem2 d2.cp dest limit).2 (dest + i) = mem (d.src + i) % 256 := by
  obtain ⟨hord, hsrc, h4, hh⟩ := got_codepoint_inversion mem d d2 hidle hdec
  refine ⟨hord, hsrc, h4, ?_⟩
  intro mem2 dest limit hroom
  rw [utf8_encode_ok mem2 d2.cp dest limit hord hroom]
  refine ⟨rfl, ?_⟩
  intro i hi
  have hlen := utf8_bytes_length d2.cp (ordinary_le _ hord)
  have hget : (utf8_bytes d2.cp)[i]? = some ((utf8_bytes d2.cp)[i]) :=
    List.getElem?_eq_getElem (by omega)
  have h1 := poke_list_get (utf8_bytes d2.cp) dest mem2 i _ hget
  have h2 := holds_get mem (utf8_bytes d2.cp) d.src i _ hh hget
  dsimp only
  rw [h1, ← h2, Nat.mod_mod]

/-- Witness of `got_codepoint_is_canonical`: `E2 98 83` decodes to U+2603. -/
theorem got_codepoint_is_canonical_witness :
    codepoint_semantic 0x2603 = CodepointSemantic.ordinary ∧
    103 = 100 + utf8_code_length 0x2603 ∧ utf8_code_length 0x2603 ≤ 4 ∧
    ∀ (mem2 : Mem) (dest limit : Nat), 4 ≤ (limit : Int) - (dest : Int) →
      (utf8_encode mem2 0x2603 dest limit).1 = dest + utf8_code_length 0x2603 ∧
      ∀ i, i < utf8_code_length 0x2603 →
        (utf8_encode mem2 0x2603 dest limit).2 (dest + i)
          = image 100 [0xE2, 0x98, 0x83] (100 + i) % 256 :=
  got_codepoint_is_canonical (image 100 [0xE2, 0x98, 0x83]) ⟨100, 103, 0, 0, 0⟩
    ⟨103, 103, 0x2603, 0, 4⟩ rfl (by decide)

end Rk
